import Mathlib

/-!
# Aligned PER encoder (`marshal.go`): shallow embedding and verification

The encoder of `marshal.go` is translated function by function.

Conventions of the embedding:

* `[]byte` is `List Nat` (every element an octet, `< 256`); a slice has
  capacity equal to its length, so a slice expression beyond the length panics.
* `uint`, `uint64` are naturals with arithmetic taken modulo `2 ^ 64`;
  `int`, `int64` are integers wrapped by `toInt64`.
* A method on `*perRawBitData` takes the writer and returns an `Outcome`: the
  writer on success, the error together with the writer as the method left it,
  a run-time panic, or divergence of a loop.
* Trace output (`perTrace`, `perRawBitLog`, `log.Printf`) has no effect on the
  writer and is left out.
-/

namespace Aper

/-! ## Machine arithmetic -/

/-- Conversion `uint64(x)` of a signed value: reduction modulo `2 ^ 64`. -/
def toUint64 (x : Int) : Nat := (x % 2 ^ 64).toNat

/-- Wrap-around of signed 64-bit arithmetic (`int64`). -/
def toInt64 (x : Int) : Int := (x + 2 ^ 63) % 2 ^ 64 - 2 ^ 63

/-- Unsigned 64-bit addition. -/
def addU64 (a b : Nat) : Nat := (a + b) % 2 ^ 64

/-- Unsigned 64-bit subtraction. -/
def subU64 (a b : Nat) : Nat := (a % 2 ^ 64 + 2 ^ 64 - b % 2 ^ 64) % 2 ^ 64

/-- Left shift of an unsigned 64-bit value by a variable count. -/
def shlU64 (a s : Nat) : Nat := (a * 2 ^ s) % 2 ^ 64

/-! ## Writer state and outcomes -/

/-- The bit writer: `type perRawBitData struct { bytes []byte; bitsOffset uint }`. -/
structure perRawBitData where
  bytes : List Nat
  bitsOffset : Nat
deriving DecidableEq, Repr

/-- The errors built with `fmt.Errorf` in `marshal.go` (and the one returned by
`GetBitString`), one constructor per message. -/
inductive PerError where
  | getBitsOverflow
  | bitsOverCapacity
  | rangeNegative
  | constraintTooLarge
  | belowLowerBound
  | bitStringOverUpper
  | bitStringNotFixed
  | octetStringOverUpper
  | octetStringNotFixed
  | integerBelowLower
  | integerAboveUpper
  | enumConstraint
  | enumAboveUpper
  | seqOfAboveUpper
  | seqOfBelowLower
  | seqOfNotFixed
  | choiceUpperMissing
  | choiceUpperNegative
  | choiceExtended
  | nilValue
  | objectIdentifier
  | unexportedField
  | nilInSequence
  | presentZero
  | presentTooBig
  | openTypeRefEmpty
  | openTypeRefMismatch
  | openTypeNoReference
  | referenceValue
  | unsupported
deriving DecidableEq, Repr

/-- Result of running a method of the writer. -/
inductive Outcome where
  | ok (pd : perRawBitData)
  | error (e : PerError) (pd : perRawBitData)
  | panic
  | diverge
deriving DecidableEq, Repr

/-- Sequencing: continue with the writer of a successful step. -/
def Outcome.andThen (o : Outcome) (f : perRawBitData → Outcome) : Outcome :=
  match o with
  | .ok pd => f pd
  | .error e pd => .error e pd
  | .panic => .panic
  | .diverge => .diverge

/-- The pattern `if errTmp := pd.putBitsValue(..); errTmp != nil { log.Printf(..) }`:
an error is only logged and the caller goes on with the writer as it is. -/
def Outcome.logged (o : Outcome) (f : perRawBitData → Outcome) : Outcome :=
  match o with
  | .ok pd => f pd
  | .error _ pd => f pd
  | .panic => .panic
  | .diverge => .diverge

/-- The method returned a non-nil error. -/
def Outcome.isError (o : Outcome) : Prop := ∃ e pd, o = .error e pd

/-! ## Bit-level view of octets -/

/-- The `n` low bits of `v`, most significant first. -/
def natBits : Nat → Nat → List Bool
  | 0, _ => []
  | n + 1, v => natBits n (v / 2) ++ [decide (v % 2 = 1)]

/-- The number written by a bit list, most significant bit first. -/
def bitsNat (l : List Bool) : Nat :=
  l.foldl (fun acc b => 2 * acc + (if b then 1 else 0)) 0

/-- The eight bits of one octet. -/
def byteBits (b : Nat) : List Bool := natBits 8 b

/-- The bits of an octet sequence. -/
def bytesBits : List Nat → List Bool
  | [] => []
  | b :: bs => byteBits b ++ bytesBits bs

/-- Big-endian octets: the `k` low octets of `v`, most significant first. -/
def beBytes : Nat → Nat → List Nat
  | 0, _ => []
  | k + 1, v => beBytes k (v / 256) ++ [v % 256]

/-- Pack bits into `k` octets, the last one padded with zero bits. -/
def packBitsAux : Nat → List Bool → List Nat
  | 0, _ => []
  | k + 1, l =>
    bitsNat (l.take 8 ++ List.replicate (8 - (l.take 8).length) false) :: packBitsAux k (l.drop 8)

/-- Pack bits into whole octets, zero-padded. -/
def packBits (l : List Bool) : List Nat := packBitsAux ((l.length + 7) / 8) l

/-- Number of bits written so far. -/
def perRawBitData.bitLen (pd : perRawBitData) : Nat :=
  8 * pd.bytes.length - (8 - pd.bitsOffset) % 8

/-- The bit stream written so far: all bits of `bytes` but the unused low bits
of the last octet. -/
def perRawBitData.bits (pd : perRawBitData) : List Bool :=
  (bytesBits pd.bytes).take pd.bitLen

/-- The invariant of the writer (spec, BitWriter): `bitsOffset < 8`, octets only,
a partly filled octet exists when `bitsOffset ≠ 0`, and its unused low bits are zero. -/
def perRawBitData.WF (pd : perRawBitData) : Prop :=
  pd.bitsOffset < 8 ∧ (∀ b ∈ pd.bytes, b < 256) ∧
  (pd.bitsOffset ≠ 0 → pd.bytes ≠ []) ∧
  bytesBits pd.bytes = pd.bits ++ List.replicate ((8 - pd.bitsOffset) % 8) false

/-- The writer holds the bit stream `s`: its octets are `s` followed by the zero
bits that fill the last octet. -/
def perRawBitData.Holds (pd : perRawBitData) (s : List Bool) : Prop :=
  pd.bitsOffset < 8 ∧ (∀ b ∈ pd.bytes, b < 256) ∧
  bytesBits pd.bytes = s ++ List.replicate ((8 - pd.bitsOffset) % 8) false

/-- Modelled from the spec: `GetBitString` is defined outside `marshal.go`. It returns
`numBits` bits of `srcBytes` starting at bit `bitsOffset`, zero-padded to whole
octets, and fails when the source does not hold that many bits. -/
def GetBitString (srcBytes : List Nat) (bitsOffset numBits : Nat) : Option (List Nat) :=
  if 8 * srcBytes.length < bitsOffset + numBits then none
  else some (packBits (((bytesBits srcBytes).drop bitsOffset).take numBits))

/-! ## BitWriter (`marshal.go` lines 27-94) -/

/-- The Go method `bitCarry`. -/
def bitCarry (pd : perRawBitData) : perRawBitData :=
  { pd with bitsOffset := pd.bitsOffset % 8 }

/-- The Go method `appendAlignBits`. -/
def appendAlignBits (pd : perRawBitData) : perRawBitData :=
  { pd with bitsOffset := 0 }

/-- The Go method `putBitString`. -/
def putBitString (pd : perRawBitData) (bytes : List Nat) (numBits : Nat) : Outcome :=
  let n := (numBits + 7) % 2 ^ 64 / 8
  if bytes.length < n then .panic
  else
    let bytes := bytes.take n
    if pd.bitsOffset = 0 then
      .ok { bytes := pd.bytes ++ bytes, bitsOffset := numBits % 8 }
    else
      let bitsLeft := subU64 8 pd.bitsOffset
      if numBits ≤ bitsLeft then
        match pd.bytes.getLast?, bytes.head? with
        | some cur, some b0 =>
          .ok (bitCarry { bytes := pd.bytes.dropLast ++ [cur ||| (b0 >>> pd.bitsOffset)],
                          bitsOffset := numBits % 8 + pd.bitsOffset })
        | _, _ => .panic
      else
        match GetBitString (0 :: bytes) bitsLeft (addU64 pd.bitsOffset numBits) with
        | none => .error .getBitsOverflow pd
        | some shiftBytes =>
          match pd.bytes.getLast?, shiftBytes with
          | some cur, s0 :: rest =>
            .ok (bitCarry { bytes := pd.bytes.dropLast ++ [cur ||| s0] ++ rest,
                            bitsOffset := numBits % 8 + pd.bitsOffset })
          | _, _ => .panic

/-- The loop of `putBitsValue` filling `tempBytes` from index `i` downwards; the
first argument is `i + 1`. `none` is the error return at `i < 0`. -/
def fillTemp : Nat → Nat → List Nat → Option (List Nat)
  | 0, value, tempBytes => if value = 0 then some tempBytes else none
  | i + 1, value, tempBytes =>
    if value = 0 then some tempBytes
    else fillTemp i (value / 256) (tempBytes.set i (value % 256))

/-- The Go method `putBitsValue`. -/
def putBitsValue (pd : perRawBitData) (value : Nat) (numBits : Nat) : Outcome :=
  if numBits = 0 then .ok pd
  else
    let Byteslen := (numBits + 7) % 2 ^ 64 / 8
    let bitOff := if numBits % 8 = 0 then 8 else numBits % 8
    let LeftbitOff := 8 - bitOff
    if Byteslen = 0 then .panic
    else
      let tempBytes := (List.replicate Byteslen 0).set (Byteslen - 1) (shlU64 value LeftbitOff % 256)
      match fillTemp (Byteslen - 1) (value / 2 ^ bitOff) tempBytes with
      | none => .error .bitsOverCapacity pd
      | some tempBytes => putBitString pd tempBytes numBits

/-! ## PrimitiveCodec -/

/-- The loop `for i = 1; i <= 8; i++ { if 1<<i >= bound { break } }`: the first
argument counts the iterations left, the result is the final `i`. -/
def widthLoop : Nat → Nat → Int → Nat
  | 0, i, _ => i
  | fuel + 1, i, bound => if bound ≤ 2 ^ i then i else widthLoop fuel (i + 1) bound

/-- The Go method `appendConstraintValue`. -/
def appendConstraintValue (pd : perRawBitData) (valueRange : Int) (value : Nat) : Outcome :=
  if valueRange ≤ 255 then
    if valueRange < 0 then .error .rangeNegative pd
    else putBitsValue pd value (widthLoop 8 1 valueRange)
  else if valueRange = 256 then putBitsValue (appendAlignBits pd) value (1 * 8)
  else if valueRange ≤ 65536 then putBitsValue (appendAlignBits pd) value (2 * 8)
  else .error .constraintTooLarge pd

/-- The Go method `appendLength`. -/
def appendLength (pd : perRawBitData) (sizeRange : Int) (value : Nat) : Outcome :=
  if sizeRange ≤ 65536 ∧ sizeRange > 0 then appendConstraintValue pd sizeRange value
  else
    let pd := appendAlignBits pd
    if value ≤ 127 then putBitsValue pd value 8
    else if value ≤ 16383 then putBitsValue pd (value ||| 0x8000) 16
    else putBitsValue pd ((value >>> 14) ||| 0xc0) 8

/-- The loop `for valueTmp > 0 { length++; valueTmp >>= 8 }` of
`putSemiConstrainedWholeNumber`; a `uint64` is zero after eight shifts, so
eight iterations are all the loop can make. -/
def semiLengthLoop : Nat → Nat → Nat → Nat
  | 0, length, _ => length
  | fuel + 1, length, valueTmp =>
    if valueTmp > 0 then semiLengthLoop fuel (length + 1) (valueTmp / 256) else length

/-- The Go method `putSemiConstrainedWholeNumber`. -/
def putSemiConstrainedWholeNumber (pd : perRawBitData) (value lb : Nat) : Outcome :=
  if lb > value then .error .belowLowerBound pd
  else
    let value := value - lb
    let length := semiLengthLoop 8 1 (value / 256)
    (appendLength pd (-1) length).andThen fun pd =>
      putBitsValue pd value (length * 8)

/-- The Go method `appendNormallySmallNonNegativeValue`. -/
def appendNormallySmallNonNegativeValue (pd : perRawBitData) (value : Nat) : Outcome :=
  if value < 64 then
    (putBitsValue pd 0 1).andThen fun pd => putBitsValue pd value 6
  else
    (putBitsValue pd 1 1).andThen fun pd => putSemiConstrainedWholeNumber pd value 0

/-- The Go method `appendBool`. -/
def appendBool (pd : perRawBitData) (value : Bool) : Outcome :=
  if value then putBitsValue pd 1 1 else putBitsValue pd 0 1

/-! ## Fragmentation helpers -/

/-- The fragment size chosen at the head of each fragmentation loop:
`if rawLength > 65536 { 65536 } else if rawLength >= 16384 { rawLength & 0xc000 }
else { rawLength }`. -/
def fragmentPart (rawLength : Nat) : Nat :=
  if rawLength > 65536 then 65536
  else if rawLength ≥ 16384 then rawLength &&& 0xc000
  else rawLength

/-- The slice expression `bytes[lo:hi]`; `none` is the run-time panic. -/
def goSlice (bytes : List Nat) (lo hi : Nat) : Option (List Nat) :=
  if hi > bytes.length ∨ lo > hi then none else some ((bytes.drop lo).take (hi - lo))

/-! ## BIT STRING -/

/-- The fragmentation loop of `appendBitString`; the first argument bounds the
number of iterations. -/
def bitStringLoop : Nat → perRawBitData → List Nat → Int → Int → Nat → Nat → Outcome
  | 0, _, _, _, _, _, _ => .diverge
  | fuel + 1, pd, bytes, lb, sizeRange, rawLength, byteOffset =>
    let partOfRawLength := fragmentPart rawLength
    (appendLength pd sizeRange partOfRawLength).andThen fun pd =>
      let partOfRawLength := addU64 partOfRawLength (toUint64 lb)
      let sizes := addU64 partOfRawLength 7 / 8
      if partOfRawLength = 0 then .ok pd
      else
        let pd := appendAlignBits pd
        match goSlice bytes byteOffset (addU64 byteOffset sizes) with
        | none => .panic
        | some chunk =>
          let pd := { pd with bytes := pd.bytes ++ chunk }
          let rawLength := subU64 rawLength (subU64 partOfRawLength (toUint64 lb))
          if rawLength > 0 then
            bitStringLoop fuel pd bytes lb sizeRange rawLength (addU64 byteOffset sizes)
          else .ok { pd with bitsOffset := addU64 pd.bitsOffset (partOfRawLength % 8) }

/-- Lines 215-275 of `appendBitString`: everything after the bounds have been read. -/
def bitStringBody (pd : perRawBitData) (bytes : List Nat) (bitsLength : Nat)
    (lb ub sizeRange : Int) : Outcome :=
  let sizeRange := if ub > 65535 then -1 else sizeRange
  let sizes := addU64 bitsLength 7 / 8
  let shift := 8 - bitsLength % 8
  if shift ≠ 8 ∧ bytes.length ≤ subU64 sizes 1 then .panic
  else
    let bytes := if shift ≠ 8 then
        bytes.set (subU64 sizes 1) (bytes.getD (subU64 sizes 1) 0 &&& (0xff * 2 ^ shift % 256))
      else bytes
    if sizeRange = 1 then
      if sizes > 2 then
        let pd := { bytes := pd.bytes ++ bytes, bitsOffset := (ub % 8).toNat : perRawBitData }
        if bitsLength ≠ toUint64 ub then .error .bitStringNotFixed pd else .ok pd
      else putBitString pd bytes bitsLength
    else
      let rawLength := subU64 bitsLength (toUint64 lb)
      bitStringLoop (rawLength + bytes.length + 1) pd bytes lb sizeRange rawLength 0

/-- The Go method `appendBitString`. -/
def appendBitString (pd : perRawBitData) (bytes : List Nat) (bitsLength : Nat)
    (extensive : Bool) (lowerBoundPtr upperBoundPtr : Option Int) : Outcome :=
  match lowerBoundPtr, upperBoundPtr with
  | some lb, some ub =>
    let sizeRange : Int := if bitsLength ≤ toUint64 ub then toInt64 (ub - lb + 1) else -1
    if ¬ bitsLength ≤ toUint64 ub ∧ extensive = false then .error .bitStringOverUpper pd
    else if extensive then
      if sizeRange = -1 then
        (putBitsValue pd 1 1).logged fun pd => bitStringBody pd bytes bitsLength 0 ub sizeRange
      else
        (putBitsValue pd 0 1).logged fun pd => bitStringBody pd bytes bitsLength lb ub sizeRange
    else bitStringBody pd bytes bitsLength lb ub sizeRange
  | some lb, none => bitStringBody pd bytes bitsLength lb (-1) (-1)
  | none, _ => bitStringBody pd bytes bitsLength 0 (-1) (-1)

/-! ## OCTET STRING -/

/-- The fragmentation loop of `appendOctetString`; the first argument bounds the
number of iterations. -/
def octetStringLoop : Nat → perRawBitData → List Nat → Int → Int → Nat → Nat → Outcome
  | 0, _, _, _, _, _, _ => .diverge
  | fuel + 1, pd, bytes, lb, sizeRange, rawLength, byteOffset =>
    let partOfRawLength := fragmentPart rawLength
    (appendLength pd sizeRange partOfRawLength).andThen fun pd =>
      let partOfRawLength := addU64 partOfRawLength (toUint64 lb)
      if partOfRawLength = 0 then .ok pd
      else
        let pd := appendAlignBits pd
        match goSlice bytes byteOffset (addU64 byteOffset partOfRawLength) with
        | none => .panic
        | some chunk =>
          let pd := { pd with bytes := pd.bytes ++ chunk }
          let rawLength := subU64 rawLength (subU64 partOfRawLength (toUint64 lb))
          if rawLength > 0 then
            octetStringLoop fuel pd bytes lb sizeRange rawLength (addU64 byteOffset partOfRawLength)
          else .ok pd

/-- Lines 307-360 of `appendOctetString`: everything after the bounds have been read. -/
def octetStringBody (pd : perRawBitData) (bytes : List Nat) (lb ub sizeRange : Int) : Outcome :=
  let byteLen := bytes.length
  let sizeRange := if ub > 65535 then -1 else sizeRange
  if sizeRange = 1 then
    if byteLen ≠ toUint64 ub then .error .octetStringNotFixed pd
    else if byteLen > 2 then
      .ok { (appendAlignBits pd) with bytes := pd.bytes ++ bytes }
    else putBitString pd bytes (byteLen * 8 % 2 ^ 64)
  else
    let rawLength := subU64 byteLen (toUint64 lb)
    octetStringLoop (rawLength + bytes.length + 1) pd bytes lb sizeRange rawLength 0

/-- The Go method `appendOctetString`. -/
def appendOctetString (pd : perRawBitData) (bytes : List Nat) (extensive : Bool)
    (lowerBoundPtr upperBoundPtr : Option Int) : Outcome :=
  let byteLen := bytes.length
  match lowerBoundPtr, upperBoundPtr with
  | some lb, some ub =>
    let sizeRange : Int := if byteLen ≤ toUint64 ub then toInt64 (ub - lb + 1) else -1
    if ¬ byteLen ≤ toUint64 ub ∧ extensive = false then .error .octetStringOverUpper pd
    else if extensive then
      if sizeRange = -1 then
        (putBitsValue pd 1 1).logged fun pd => octetStringBody pd bytes 0 ub sizeRange
      else
        (putBitsValue pd 0 1).logged fun pd => octetStringBody pd bytes lb ub sizeRange
    else octetStringBody pd bytes lb ub sizeRange
  | some lb, none => octetStringBody pd bytes lb (-1) (-1)
  | none, _ => octetStringBody pd bytes 0 (-1) (-1)

/-! ## INTEGER -/

/-- The loop `for rawLength = 1; rawLength <= 127; rawLength++ { if unsignedValue == 0
{ break }; unsignedValue >>= 8 }`; the first argument counts the iterations left. -/
def rawLengthLoop : Nat → Nat → Nat → Nat
  | 0, rawLength, _ => rawLength
  | fuel + 1, rawLength, unsignedValue =>
    if unsignedValue = 0 then rawLength
    else rawLengthLoop fuel (rawLength + 1) (unsignedValue / 256)

/-- The loop `for byteLen = 1; byteLen <= 127; byteLen++ { unsignedValueRange >>= 8;
if unsignedValueRange <= 1 { break } }`. -/
def byteLenLoop : Nat → Nat → Nat → Nat
  | 0, byteLen, _ => byteLen
  | fuel + 1, byteLen, unsignedValueRange =>
    if unsignedValueRange / 256 ≤ 1 then byteLen
    else byteLenLoop fuel (byteLen + 1) (unsignedValueRange / 256)

/-- Lines 430-478 of `appendInteger`: the length-prefixed forms, entered with
`unsignedValue` already shifted. -/
def integerLong (pd : perRawBitData) (value lb valueRange : Int) (unsignedValue : Nat) : Outcome :=
  let rawLength := rawLengthLoop 127 1 unsignedValue
  let afterLength : Outcome :=
    if valueRange ≤ 0 then
      .ok { (appendAlignBits pd) with bytes := pd.bytes ++ [rawLength % 256] }
    else
      let byteLen := byteLenLoop 127 1 (toUint64 (toInt64 (valueRange - 1)))
      let i := widthLoop 8 1 byteLen
      putBitsValue pd (rawLength - 1) i
  afterLength.andThen fun pd =>
    let rawLength := rawLength * 8
    let pd := appendAlignBits pd
    if valueRange < 0 then
      let mask := toInt64 ((if rawLength < 64 then 2 ^ rawLength else 0) - 1)
      putBitsValue pd (toUint64 (Int.land value mask)) rawLength
    else
      putBitsValue pd (toUint64 (toInt64 (value - lb))) rawLength

/-- Lines 412-429 of `appendInteger`: the encoding once `lb` and `valueRange` are set. -/
def integerBody (pd : perRawBitData) (value lb valueRange : Int) : Outcome :=
  let unsignedValue := toUint64 value
  if valueRange = 1 then .ok pd
  else
    let unsignedValue :=
      if value < 0 then
        let y := Int.shiftRight value 63
        subU64 (toUint64 (toInt64 (Int.xor value y - y))) 1
      else unsignedValue
    if valueRange ≤ 0 then integerLong pd value lb valueRange (unsignedValue / 2 ^ 7)
    else if valueRange ≤ 65536 then
      appendConstraintValue pd valueRange (toUint64 (toInt64 (value - lb)))
    else integerLong pd value lb valueRange (unsignedValue / 2 ^ 8)

/-- The Go method `appendInteger`. -/
def appendInteger (pd : perRawBitData) (value : Int) (extensive : Bool)
    (lowerBoundPtr upperBoundPtr : Option Int) : Outcome :=
  match lowerBoundPtr with
  | some lb =>
    if value < lb then .error .integerBelowLower pd
    else
      match upperBoundPtr with
      | some ub =>
        let valueRange : Int := if value ≤ ub then toInt64 (ub - lb + 1) else 0
        if ¬ value ≤ ub ∧ extensive = false then .error .integerAboveUpper pd
        else if extensive then
          if valueRange = 0 then
            (putBitsValue pd 1 1).logged fun pd => integerBody pd value lb (-1)
          else
            (putBitsValue pd 0 1).logged fun pd => integerBody pd value lb valueRange
        else integerBody pd value lb valueRange
      | none => integerBody pd value lb 0
  | none => integerBody pd value 0 (-1)

/-! ## ENUMERATED, CHOICE index -/

/-- The Go method `appendEnumerated`. -/
def appendEnumerated (pd : perRawBitData) (value : Nat) (extensive : Bool)
    (lowerBoundPtr upperBoundPtr : Option Int) : Outcome :=
  match lowerBoundPtr, upperBoundPtr with
  | some lb, some ub =>
    if lb < 0 ∨ lb > ub then .error .enumConstraint pd
    else if value ≤ toUint64 ub then
      (if extensive then putBitsValue pd 0 1 else .ok pd).andThen fun pd =>
        let valueRange := toInt64 (ub - lb + 1)
        if valueRange > 1 then appendConstraintValue pd valueRange value else .ok pd
    else
      if extensive = false then .error .enumAboveUpper pd
      else
        (putBitsValue pd 1 1).andThen fun pd =>
          appendNormallySmallNonNegativeValue pd (subU64 (subU64 value (toUint64 ub)) 1)
  | _, _ => .error .enumConstraint pd

/-- The Go method `appendChoiceIndex`. -/
def appendChoiceIndex (pd : perRawBitData) (present : Int) (extensive : Bool)
    (upperBoundPtr : Option Int) : Outcome :=
  let rawChoice := toInt64 (present - 1)
  match upperBoundPtr with
  | none => .error .choiceUpperMissing pd
  | some ub =>
    if ub < 0 then .error .choiceUpperNegative pd
    else if extensive = true ∧ rawChoice > ub then .error .choiceExtended pd
    else appendConstraintValue pd (toInt64 (ub + 1)) (toUint64 rawChoice)

/-! ## Values and field parameters -/

/-- Modelled from the spec: the struct `fieldParameters` is declared outside
`marshal.go`; these are the fields the encoder reads (spec, FieldParameters table),
a nil `*int64` being `none`. -/
structure fieldParameters where
  optional : Bool
  sizeExtensible : Bool
  valueExtensible : Bool
  sizeLowerBound : Option Int
  sizeUpperBound : Option Int
  valueLowerBound : Option Int
  valueUpperBound : Option Int
  openType : Bool
  referenceFieldName : String
  referenceFieldValue : Option Int
deriving DecidableEq, Repr

mutual
/-- The value tree that `makeField` walks by reflection. `invalid` is the zero
`reflect.Value` (what `Elem` gives for a nil pointer or interface); `other` is any
kind the encoder does not support and on which `IsNil` panics; `nilSlice` is a nil
slice, of type `OctetString` when `octets` holds. -/
inductive Value where
  | invalid
  | iface (elem : Value)
  | ptr (elem : Value)
  | bitString (bytes : List Nat) (bitLength : Nat)
  | objectIdentifier
  | octetString (bytes : List Nat)
  | enumerated (value : Nat)
  | bool (b : Bool)
  | int (value : Int)
  | struct (fields : Fields)
  | slice (elems : Values)
  | nilSlice (octets : Bool)
  | string (bytes : List Nat)
  | other
/-- The fields of a struct in declaration order: name, whether exported
(`PkgPath == ""`), the parameters parsed from the `aper` tag, and the value. -/
inductive Fields where
  | nil
  | cons (name : String) (exported : Bool) (params : fieldParameters) (value : Value)
      (rest : Fields)
/-- The elements of a slice. -/
inductive Values where
  | nil
  | cons (v : Value) (rest : Values)
end

/-- The call `v.IsNil()`; `none` is the panic of `reflect` on a kind without nil. -/
def Value.isNil : Value → Option Bool
  | .iface .invalid => some true
  | .iface _ => some false
  | .ptr .invalid => some true
  | .ptr _ => some false
  | .nilSlice _ => some true
  | .octetString _ => some false
  | .slice _ => some false
  | _ => none

/-- Whether `v.Type().Kind() == reflect.Ptr`. -/
def Value.isPtr : Value → Bool
  | .ptr _ => true
  | _ => false

/-- The number of fields, `NumField()`. -/
def Fields.numField : Fields → Nat
  | .nil => 0
  | .cons _ _ _ _ rest => rest.numField + 1

/-- The number of elements, `v.Len()`. -/
def Values.len : Values → Nat
  | .nil => 0
  | .cons _ rest => rest.len + 1

/-- The value `val.Field(i)`. -/
def Fields.field : Fields → Nat → Option Value
  | .nil, _ => none
  | .cons _ _ _ v _, 0 => some v
  | .cons _ _ _ _ rest, i + 1 => rest.field i

/-- The entry `structParams[i]` as parsed from the tag of field `i`. -/
def Fields.paramsAt : Fields → Nat → Option fieldParameters
  | .nil, _ => none
  | .cons _ _ params _ _, 0 => some params
  | .cons _ _ _ _ rest, i + 1 => rest.paramsAt i

/-- The test `structType.NumField() <= 0 || structType.Field(0).Name != PRESENT`. -/
def Fields.sequenceType : Fields → Bool
  | .nil => true
  | .cons name _ _ _ _ => name != "Present"

/-- The search `for index = 0; index < i; index++ { if Field(index).Name == fieldName
{ break } }`: the value of the first of the `i` leading fields with that name. -/
def Fields.findBefore : Fields → Nat → String → Option Value
  | .nil, _, _ => none
  | .cons _ _ _ _ _, 0, _ => none
  | .cons name _ _ v rest, i + 1, fieldName =>
    if name = fieldName then some v else rest.findBefore i fieldName

/-- Modelled from the spec: `getReferenceFieldValue` is defined outside `marshal.go`;
it extracts the numeric value of the referenced sibling (INTEGER / ENUMERATED) and
fails on any other value. -/
def getReferenceFieldValue : Value → Option Int
  | .int value => some value
  | .enumerated value => some value
  | _ => none

/-- The first loop of the struct case of `makeField` (lines 688-707): it counts the
OPTIONAL fields and collects their presence bits. `Sum.inl` is the early exit, with
`none` for a panic of `IsNil`. -/
def scanFields (sequenceType : Bool) : Fields → Nat → Nat → Sum (Option PerError) (Nat × Nat)
  | .nil, optionalCount, optionalPresents => .inr (optionalCount, optionalPresents)
  | .cons _ exported tempParams v rest, optionalCount, optionalPresents =>
    if exported = false then .inl (some .unexportedField)
    else if sequenceType then
      if tempParams.optional then
        match v.isNil with
        | none => .inl none
        | some isNil =>
          scanFields sequenceType rest (addU64 optionalCount 1)
            (if isNil then shlU64 optionalPresents 1 else addU64 (shlU64 optionalPresents 1) 1)
      else if v.isPtr ∧ v.isNil = some true then .inl (some .nilInSequence)
      else scanFields sequenceType rest optionalCount optionalPresents
    else scanFields sequenceType rest optionalCount optionalPresents

/-! ## SEQUENCE OF, OPEN TYPE -/

/-- Lines 544-561 of `parseSequenceOf`: the length once the bounds are set. -/
def sequenceOfLength (pd : perRawBitData) (numElements lb ub sizeRange : Int) : Outcome :=
  if numElements < lb then .error .seqOfBelowLower pd
  else if sizeRange = 1 then
    if numElements ≠ ub then .error .seqOfNotFixed pd else .ok pd
  else if sizeRange > 0 then
    appendConstraintValue pd sizeRange (toUint64 (toInt64 (numElements - lb)))
  else
    .ok { (appendAlignBits pd) with bytes := pd.bytes ++ [(numElements % 256).toNat] }

/-- Lines 517-561 of `parseSequenceOf`: everything before the elements are encoded. -/
def sequenceOfHeader (pd : perRawBitData) (numElements : Int) (params : fieldParameters) :
    Outcome :=
  let lb : Int := match params.sizeLowerBound with
    | some l => if l < 65536 then l else 0
    | none => 0
  match params.sizeUpperBound with
  | some ub =>
    if ub < 65536 then
      let sizeRange : Int := if numElements > ub then -1 else toInt64 (ub - lb + 1)
      let first : Outcome :=
        if params.sizeExtensible then
          if numElements > ub then putBitsValue pd 1 1 else putBitsValue pd 0 1
        else if numElements > ub then .error .seqOfAboveUpper pd
        else .ok pd
      first.andThen fun pd => sequenceOfLength pd numElements lb ub sizeRange
    else sequenceOfLength pd numElements lb (-1) (-1)
  | none => sequenceOfLength pd numElements lb (-1) (-1)

/-- The parameters handed to the elements of a SEQUENCE OF (lines 563-565). -/
def clearSize (params : fieldParameters) : fieldParameters :=
  { params with sizeExtensible := false, sizeUpperBound := none, sizeLowerBound := none }

/-- The fragmentation loop of `appendOpenType` (lines 602-630); the first argument
bounds the number of iterations. -/
def openTypeLoop : Nat → perRawBitData → List Nat → Nat → Nat → Outcome
  | 0, _, _, _, _ => .diverge
  | fuel + 1, pd, openTypeBytes, rawLength, byteOffset =>
    let partOfRawLength := fragmentPart rawLength
    (appendLength pd (-1) partOfRawLength).andThen fun pd =>
      if partOfRawLength = 0 then .ok pd
      else
        let pd := appendAlignBits pd
        match goSlice openTypeBytes byteOffset (addU64 byteOffset partOfRawLength) with
        | none => .panic
        | some chunk =>
          let pd := { pd with bytes := pd.bytes ++ chunk }
          let rawLength := subU64 rawLength partOfRawLength
          if rawLength > 0 then
            openTypeLoop fuel pd openTypeBytes rawLength (addU64 byteOffset partOfRawLength)
          else .ok (appendAlignBits pd)

/-- Lines 594-633 of `appendOpenType`, given the outcome of encoding the value into
the fresh writer `pdOpenType`. -/
def openTypeEmit (pd : perRawBitData) (inner : Outcome) : Outcome :=
  match inner with
  | .ok pdOpenType =>
    openTypeLoop (pdOpenType.bytes.length + 1) pd pdOpenType.bytes pdOpenType.bytes.length 0
  | .error e _ => .error e pd
  | .panic => .panic
  | .diverge => .diverge

/-! ## The walk -/

mutual
/-- The Go method `makeField`. -/
def makeField (pd : perRawBitData) : Value → fieldParameters → Outcome
  | .invalid, _ => .error .nilValue pd
  | .iface elem, params => makeField pd elem params
  | .ptr elem, params => makeField pd elem params
  | .bitString bytes bitLength, params =>
    appendBitString pd bytes bitLength params.sizeExtensible params.sizeLowerBound
      params.sizeUpperBound
  | .objectIdentifier, _ => .error .objectIdentifier pd
  | .octetString bytes, params =>
    appendOctetString pd bytes params.sizeExtensible params.sizeLowerBound params.sizeUpperBound
  | .nilSlice true, params =>
    appendOctetString pd [] params.sizeExtensible params.sizeLowerBound params.sizeUpperBound
  | .enumerated value, params =>
    appendEnumerated pd value params.valueExtensible params.valueLowerBound
      params.valueUpperBound
  | .bool b, _ => appendBool pd b
  | .int value, params =>
    appendInteger pd value params.valueExtensible params.valueLowerBound params.valueUpperBound
  | .struct fields, params =>
    (if params.valueExtensible then putBitsValue pd 0 1 else .ok pd).andThen fun pd =>
      match scanFields fields.sequenceType fields 0 0 with
      | .inl (some e) => .error e pd
      | .inl none => .panic
      | .inr (optionalCount, optionalPresents) =>
        (if optionalCount > 0 then putBitsValue pd optionalPresents optionalCount
          else .ok pd).andThen fun pd =>
          if fields.sequenceType = false then
            match fields.field 0 with
            | some (.int present) =>
              if present = 0 then .error .presentZero pd
              else if present ≥ fields.numField then .error .presentTooBig pd
              else if params.openType then
                match params.referenceFieldValue with
                | none => .error .openTypeRefEmpty pd
                | some refValue =>
                  if present < 0 then .panic
                  else if (fields.paramsAt present.toNat).bind (fun p => p.referenceFieldValue)
                      ≠ some refValue then
                    .error .openTypeRefMismatch pd
                  else openTypeEmit pd (makeFieldAt { bytes := [], bitsOffset := 0 } fields present.toNat)
              else
                (appendChoiceIndex pd present params.valueExtensible
                  params.valueUpperBound).andThen fun pd =>
                  if present < 0 then .panic else makeFieldAt pd fields present.toNat
            | _ => .panic
          else makeFields pd fields fields 0 optionalCount optionalPresents
  | .slice elems, params =>
    (sequenceOfHeader pd elems.len params).andThen fun pd =>
      makeElems pd elems (clearSize params)
  | .nilSlice false, params => sequenceOfHeader pd 0 params
  | .string bytes, params =>
    appendOctetString pd bytes params.sizeExtensible params.sizeLowerBound params.sizeUpperBound
  | .other, _ => .error .unsupported pd
/-- The call `pd.makeField(val.Field(i), structParams[i])` of the CHOICE case, the
field being looked up by its index (a negative index panics before the call). -/
def makeFieldAt (pd : perRawBitData) : Fields → Nat → Outcome
  | .nil, _ => .panic
  | .cons _ _ params v _, 0 => makeField pd v params
  | .cons _ _ _ _ rest, i + 1 => makeFieldAt pd rest i
/-- The second loop of the struct case (lines 746-779) from field `i` on; `all` is
the whole struct, read when an open type refers to an earlier field. -/
def makeFields (pd : perRawBitData) (all : Fields) : Fields → Nat → Nat → Nat → Outcome
  | .nil, _, _, _ => .ok pd
  | .cons _ _ params v rest, i, optionalCount, optionalPresents =>
    let countNext := if params.optional ∧ optionalCount > 0 then optionalCount - 1 else optionalCount
    if params.optional ∧ optionalCount > 0 ∧ optionalPresents &&& shlU64 1 countNext = 0 then
      makeFields pd all rest (i + 1) countNext optionalPresents
    else if params.openType then
      match all.findBefore i params.referenceFieldName with
      | none => .error .openTypeNoReference pd
      | some ref =>
        match getReferenceFieldValue ref with
        | none => .error .referenceValue pd
        | some value =>
          (makeField pd v { params with referenceFieldValue := some value }).andThen fun pd =>
            makeFields pd all rest (i + 1) countNext optionalPresents
    else
      (makeField pd v params).andThen fun pd =>
        makeFields pd all rest (i + 1) countNext optionalPresents
/-- The loop of `parseSequenceOf` over the elements (lines 566-570). -/
def makeElems (pd : perRawBitData) : Values → fieldParameters → Outcome
  | .nil, _ => .ok pd
  | .cons v rest, params =>
    (makeField pd v params).andThen fun pd => makeElems pd rest params
end

/-- The Go method `parseSequenceOf`, on the elements of the slice. -/
def parseSequenceOf (pd : perRawBitData) (elems : Values) (params : fieldParameters) : Outcome :=
  (sequenceOfHeader pd elems.len params).andThen fun pd =>
    makeElems pd elems (clearSize params)

/-- The Go method `appendOpenType`. -/
def appendOpenType (pd : perRawBitData) (v : Value) (params : fieldParameters) : Outcome :=
  openTypeEmit pd (makeField { bytes := [], bitsOffset := 0 } v params)

/-! ## Entry point -/

/-- What a call of `MarshalWithParams` does: it returns `([]byte, error)`, panics,
or does not return. -/
inductive MarshalResult where
  | returned (bytes : Option (List Nat)) (err : Option PerError)
  | panic
  | diverge
deriving DecidableEq, Repr

/-- The Go function `MarshalWithParams`; the parameters are taken as parsed
(`parseFieldParameters` is outside `marshal.go`). -/
def MarshalWithParams (val : Value) (params : fieldParameters) : MarshalResult :=
  match makeField { bytes := [], bitsOffset := 0 } val params with
  | .error e _ => .returned none (some e)
  | .ok pd =>
    if pd.bytes.length = 0 then .returned (some (List.replicate 1 0)) none
    else .returned (some pd.bytes) none
  | .panic => .panic
  | .diverge => .diverge

/-! ## Specification-side definitions -/

/-- The unconstrained length determinant of a length `L ≤ 16383` (spec 4.2.2): one octet
`0vvvvvvv` for `L ≤ 127`, else the two octets `10vvvvvv vvvvvvvv`. -/
def lengthDeterminant (L : Nat) : List Nat :=
  if L ≤ 127 then [L] else [128 + L / 256, L % 256]

/-- The octets of a length determinant as the spec words them (4.2.2): the single octet
`value` for `value ≤ 127`, the two octets `0x80 | (value >> 8)` and `value & 0xFF` for
`value ≤ 16383`, and the single fragment octet `0xC0 | (value >> 14)` above. -/
def lengthOctets (value : Nat) : List Nat :=
  if value ≤ 127 then [value]
  else if value ≤ 16383 then [0x80 ||| (value >>> 8), value &&& 0xFF]
  else [0xC0 ||| (value >>> 14)]

/-- Every field of the struct is exported. -/
def Fields.allExported : Fields → Bool
  | .nil => true
  | .cons _ exported _ _ rest => exported && rest.allExported

/-- Every OPTIONAL field is of a kind that has a nil value (pointer, interface, slice). -/
def Fields.optionalNilable : Fields → Bool
  | .nil => true
  | .cons _ _ params v rest => (!params.optional || v.isNil.isSome) && rest.optionalNilable

/-- No mandatory field is a nil pointer. -/
def Fields.mandatoryPresent : Fields → Bool
  | .nil => true
  | .cons _ _ params v rest =>
    (params.optional || !(v.isPtr && v.isNil == some true)) && rest.mandatoryPresent

/-- The presence flags of the OPTIONAL fields in declaration order (spec 4.3.2, step 2):
`true` for a field that is present. -/
def Fields.optionalFlags : Fields → List Bool
  | .nil => []
  | .cons _ _ params v rest =>
    if params.optional then (v.isNil != some true) :: rest.optionalFlags
    else rest.optionalFlags

/-- The encoding of the fields of a SEQUENCE after the bitmap, as the spec words it
(4.3.2, step 4): for each field in declaration order, skip it if it is OPTIONAL and
absent; else, if it is marked `openType`, resolve its reference value from the earlier
sibling named by `referenceFieldName`; encode the field with its own parameters. The
second argument of the recursion is the index of the field. -/
def specSequenceFields (all : Fields) : Fields → Nat → perRawBitData → Outcome
  | .nil, _, pd => .ok pd
  | .cons _ _ params v rest, i, pd =>
    if params.optional ∧ v.isNil = some true then specSequenceFields all rest (i + 1) pd
    else if params.openType then
      match all.findBefore i params.referenceFieldName with
      | none => .error .openTypeNoReference pd
      | some ref =>
        match getReferenceFieldValue ref with
        | none => .error .referenceValue pd
        | some value =>
          (makeField pd v { params with referenceFieldValue := some value }).andThen
            (specSequenceFields all rest (i + 1))
    else (makeField pd v params).andThen (specSequenceFields all rest (i + 1))

/-- The elements of a slice as a list. -/
def Values.toList : Values → List Value
  | .nil => []
  | .cons v rest => v :: rest.toList

/-- The elements of a SEQUENCE OF encoded one after the other in index order, all
with the same parameters (spec 4.3.4, last sentence). -/
def specElements (pd : perRawBitData) (elems : List Value) (params : fieldParameters) : Outcome :=
  elems.foldl (fun o v => o.andThen fun pd => makeField pd v params) (.ok pd)

/-- The SEQUENCE of the worked example (spec 8): `A` OPTIONAL and absent, `B` OPTIONAL and
present with the BOOLEAN false, `C` a mandatory BOOLEAN true. -/
def exampleSequence : Fields :=
  .cons "A" true ⟨true, false, false, none, none, none, none, false, "", none⟩ (.ptr .invalid)
    (.cons "B" true ⟨true, false, false, none, none, none, none, false, "", none⟩
      (.ptr (.bool false))
    (.cons "C" true ⟨false, false, false, none, none, none, none, false, "", none⟩
      (.bool true) .nil))

/-- The CHOICE of the worked example (spec 8): the field `Present` holding 2 and three
alternatives, the second one a BOOLEAN true. -/
def exampleChoice : Fields :=
  .cons "Present" true ⟨false, false, false, none, none, none, none, false, "", none⟩ (.int 2)
    (.cons "A" true ⟨false, false, false, none, none, none, none, false, "", none⟩ (.int 7)
    (.cons "B" true ⟨false, false, false, none, none, none, none, false, "", none⟩ (.bool true)
    (.cons "C" true ⟨false, false, false, none, none, none, none, false, "", none⟩
      (.octetString [1]) .nil)))

/-! # Theorems -/

/-! ## Bits and octets -/

theorem natBits_length (n v : Nat) : (natBits n v).length = n := by
  induction n generalizing v with
  | zero => rfl
  | succ n ih => simp [natBits, ih]

theorem natBits_zero_val (n : Nat) : natBits n 0 = List.replicate n false := by
  induction n with
  | zero => rfl
  | succ n ih => simp [natBits, ih, List.replicate_succ']

theorem natBits_split (a k v : Nat) :
    natBits (a + k) v = natBits a (v / 2 ^ k) ++ natBits k v := by
  induction k generalizing v with
  | zero => simp [natBits]
  | succ k ih =>
    have h : a + (k + 1) = (a + k) + 1 := by omega
    rw [h, natBits, natBits, ih, Nat.div_div_eq_div_mul, ← Nat.pow_succ']
    simp

theorem bitsNat_snoc (l : List Bool) (b : Bool) :
    bitsNat (l ++ [b]) = 2 * bitsNat l + (if b then 1 else 0) := by
  simp [bitsNat, List.foldl_append]

theorem bitsNat_append (a b : List Bool) :
    bitsNat (a ++ b) = bitsNat a * 2 ^ b.length + bitsNat b := by
  induction b using List.reverseRecOn with
  | nil => simp [bitsNat]
  | append_singleton b x ih =>
    rw [← List.append_assoc, bitsNat_snoc, bitsNat_snoc, ih]
    simp [Nat.pow_succ]
    ring

theorem bitsNat_lt (l : List Bool) : bitsNat l < 2 ^ l.length := by
  induction l using List.reverseRecOn with
  | nil => simp [bitsNat]
  | append_singleton l x ih =>
    rw [bitsNat_snoc]
    simp [Nat.pow_succ]
    split <;> omega

theorem bitsNat_replicate_false (k : Nat) : bitsNat (List.replicate k false) = 0 := by
  induction k with
  | zero => rfl
  | succ k ih => rw [List.replicate_succ', bitsNat_snoc, ih]; simp

theorem natBits_bitsNat (l : List Bool) : natBits l.length (bitsNat l) = l := by
  induction l using List.reverseRecOn with
  | nil => rfl
  | append_singleton l x ih =>
    rw [bitsNat_snoc]
    simp only [List.length_append, List.length_singleton, natBits]
    have h1 : (2 * bitsNat l + (if x then 1 else 0)) / 2 = bitsNat l := by
      split <;> omega
    rw [h1, ih]
    cases x <;> simp <;> omega

theorem bitsNat_natBits (n v : Nat) : bitsNat (natBits n v) = v % 2 ^ n := by
  induction n generalizing v with
  | zero => simp [natBits, bitsNat, Nat.mod_one]
  | succ n ih =>
    rw [natBits, bitsNat_snoc, ih, Nat.pow_succ]
    have := Nat.mod_mul_right_div_self v 2 (2 ^ n)
    have h2 : v % (2 ^ n * 2) = 2 * (v / 2 % 2 ^ n) + v % 2 := by
      rw [Nat.mul_comm (2 ^ n) 2, Nat.mod_mul]
      omega
    rw [h2]
    by_cases h : v % 2 = 1 <;> simp [h] <;> omega



theorem bytesBits_append (a b : List Nat) : bytesBits (a ++ b) = bytesBits a ++ bytesBits b := by
  induction a with
  | nil => rfl
  | cons x a ih => simp [bytesBits, ih]

theorem bytesBits_length (a : List Nat) : (bytesBits a).length = 8 * a.length := by
  induction a with
  | nil => rfl
  | cons x a ih => simp [bytesBits, byteBits, natBits_length, ih]; omega

theorem bytesBits_singleton (b : Nat) : bytesBits [b] = byteBits b := by
  simp [bytesBits]

theorem beBytes_length (k v : Nat) : (beBytes k v).length = k := by
  induction k generalizing v with
  | zero => rfl
  | succ k ih => simp [beBytes, ih]

theorem beBytes_zero_val (k : Nat) : beBytes k 0 = List.replicate k 0 := by
  induction k with
  | zero => rfl
  | succ k ih => simp [beBytes, ih, List.replicate_succ']

theorem beBytes_lt (k v : Nat) : ∀ b ∈ beBytes k v, b < 256 := by
  induction k generalizing v with
  | zero => simp [beBytes]
  | succ k ih =>
    intro b hb
    simp only [beBytes, List.mem_append, List.mem_singleton] at hb
    rcases hb with hb | hb
    · exact ih _ b hb
    · omega

theorem bytesBits_beBytes (k v : Nat) : bytesBits (beBytes k v) = natBits (8 * k) v := by
  induction k generalizing v with
  | zero => rfl
  | succ k ih =>
    have h : 8 * (k + 1) = 8 * k + 8 := by omega
    rw [beBytes, bytesBits_append, ih, h, natBits_split, bytesBits_singleton, byteBits]
    congr 1
    have h8 : natBits 8 (v % 256) = natBits 8 v := by
      have e1 := natBits_bitsNat (natBits 8 v)
      rw [natBits_length, bitsNat_natBits] at e1
      exact e1
    exact h8

theorem natBits_mod (n v : Nat) : natBits n (v % 2 ^ n) = natBits n v := by
  have e1 := natBits_bitsNat (natBits n v)
  rw [natBits_length, bitsNat_natBits] at e1
  exact e1

theorem natBits_mul_pow (n k v : Nat) :
    natBits (n + k) (v * 2 ^ k) = natBits n v ++ List.replicate k false := by
  rw [natBits_split, Nat.mul_div_cancel _ (Nat.two_pow_pos k), ← natBits_mod k,
    Nat.mul_mod_left, natBits_zero_val]

theorem fillTemp_spec (i value : Nat) (suffix : List Nat) :
    fillTemp i value (List.replicate i 0 ++ suffix)
      = if value < 256 ^ i then some (beBytes i value ++ suffix) else none := by
  induction i generalizing value suffix with
  | zero =>
    simp only [fillTemp, pow_zero, Nat.lt_one_iff, List.replicate_zero, List.nil_append, beBytes]
  | succ i ih =>
    rw [fillTemp]
    by_cases hv : value = 0
    · subst hv
      simp [beBytes_zero_val]
    · have hset : (List.replicate (i + 1) 0 ++ suffix).set i (value % 256)
          = List.replicate i 0 ++ (value % 256 :: suffix) := by
        rw [List.replicate_succ', List.append_assoc, List.set_append_right _ _ (by simp)]
        simp
      rw [if_neg hv, hset, ih]
      have hiff : value / 256 < 256 ^ i ↔ value < 256 ^ (i + 1) := by
        rw [Nat.div_lt_iff_lt_mul (by norm_num), pow_succ]
      by_cases h : value < 256 ^ (i + 1)
      · rw [if_pos (hiff.mpr h), if_pos h]
        simp [beBytes]
      · rw [if_neg (fun h2 => h (hiff.mp h2)), if_neg h]

/-! ## `putBitsValue` as a call of `putBitString` -/

theorem pow256 (k : Nat) : 256 ^ k = 2 ^ (8 * k) := by
  rw [pow_mul]; norm_num

theorem putBitsValue_eq (pd : perRawBitData) (value numBits : Nat)
    (h0 : 0 < numBits) (hn : numBits < 2 ^ 63) :
    putBitsValue pd value numBits =
      if value < 2 ^ numBits then
        putBitString pd
          (beBytes ((numBits + 7) / 8) (value * 2 ^ (8 * ((numBits + 7) / 8) - numBits))) numBits
      else .error .bitsOverCapacity pd := by
  unfold putBitsValue
  have hm : (numBits + 7) % 2 ^ 64 / 8 = (numBits + 7) / 8 := by
    rw [Nat.mod_eq_of_lt (by omega)]
  rw [if_neg (by omega), hm]
  obtain ⟨m, hmdef⟩ : ∃ m, (numBits + 7) / 8 = m + 1 := ⟨(numBits + 7) / 8 - 1, by omega⟩
  rw [hmdef]
  simp only [Nat.add_sub_cancel]
  rw [if_neg (by omega)]
  obtain ⟨b, hb⟩ : ∃ b, (if numBits % 8 = 0 then 8 else numBits % 8) = b := ⟨_, rfl⟩
  rw [hb]
  have hb1 : 1 ≤ b ∧ b ≤ 8 ∧ numBits = 8 * m + b := by
    split at hb <;> omega
  obtain ⟨hb1, hb8, hnb⟩ := hb1
  have hL : 8 * (m + 1) - numBits = 8 - b := by omega
  rw [hL]
  have hset : (List.replicate (m + 1) 0).set m (shlU64 value (8 - b) % 256)
      = List.replicate m 0 ++ [shlU64 value (8 - b) % 256] := by
    rw [List.replicate_succ', List.set_append_right _ _ (by simp)]
    simp
  rw [hset, fillTemp_spec]
  have hiff : value / 2 ^ b < 256 ^ m ↔ value < 2 ^ numBits := by
    rw [Nat.div_lt_iff_lt_mul (Nat.two_pow_pos b), pow256, hnb, pow_add]
  have hlast : shlU64 value (8 - b) % 256 = value * 2 ^ (8 - b) % 256 := by
    unfold shlU64
    exact Nat.mod_mod_of_dvd _ (by norm_num)
  have hdiv : value * 2 ^ (8 - b) / 256 = value / 2 ^ b := by
    have h256 : 256 = 2 ^ b * 2 ^ (8 - b) := by
      rw [← pow_add]
      have : b + (8 - b) = 8 := by omega
      rw [this]
      norm_num
    rw [h256, Nat.mul_div_mul_right _ _ (Nat.two_pow_pos _)]
  by_cases h : value < 2 ^ numBits
  · rw [if_pos (hiff.mpr h), if_pos h]
    simp only [beBytes, hdiv, hlast]
  · rw [if_neg (fun h2 => h (hiff.mp h2)), if_neg h]

theorem putBitString_aligned (bs bytes : List Nat) (numBits : Nat) (hn : numBits < 2 ^ 63)
    (hlen : bytes.length = (numBits + 7) / 8) :
    putBitString ⟨bs, 0⟩ bytes numBits = .ok ⟨bs ++ bytes, numBits % 8⟩ := by
  unfold putBitString
  have hm : (numBits + 7) % 2 ^ 64 / 8 = (numBits + 7) / 8 := by
    rw [Nat.mod_eq_of_lt (by omega)]
  simp only [hm]
  rw [if_neg (by omega)]
  simp [← hlen]

theorem putBitsValue_octets (bs : List Nat) (k value : Nat) (hk : 0 < k) (hk8 : k < 2 ^ 59)
    (hv : value < 2 ^ (8 * k)) :
    putBitsValue ⟨bs, 0⟩ value (k * 8) = .ok ⟨bs ++ beBytes k value, 0⟩ := by
  rw [putBitsValue_eq _ _ _ (by omega) (by omega), if_pos (by rw [Nat.mul_comm]; exact hv)]
  have h1 : (k * 8 + 7) / 8 = k := by omega
  rw [h1]
  have h2 : 8 * k - k * 8 = 0 := by omega
  rw [h2, pow_zero, Nat.mul_one, putBitString_aligned _ _ _ (by omega) (by rw [beBytes_length]; omega)]
  simp

/-! ## Packing bits, or-ing into the last octet -/

theorem byteBits_bitsNat (p : List Bool) (h : p.length = 8) : byteBits (bitsNat p) = p := by
  have e := natBits_bitsNat p
  rw [h] at e
  exact e

theorem bitsNat_byteBits (b : Nat) (h : b < 256) : bitsNat (byteBits b) = b := by
  rw [byteBits, bitsNat_natBits]
  exact Nat.mod_eq_of_lt h

theorem packBitsAux_bits (k : Nat) (l : List Bool) (h : l.length ≤ 8 * k) :
    bytesBits (packBitsAux k l) = l ++ List.replicate (8 * k - l.length) false := by
  induction k generalizing l with
  | zero =>
    have : l = [] := List.length_eq_zero.mp (by omega)
    subst this
    rfl
  | succ k ih =>
    rw [packBitsAux, bytesBits, byteBits_bitsNat _ (by simp only [List.length_append, List.length_take, List.length_replicate]; omega), ih _ (by simp only [List.length_drop]; omega)]
    by_cases h8 : 8 ≤ l.length
    · have e1 : 8 - (List.take 8 l).length = 0 := by simp; omega
      have e2 : 8 * k - (List.drop 8 l).length = 8 * (k + 1) - l.length := by simp; omega
      rw [e1, e2]
      simp only [List.replicate_zero, List.append_nil]
      rw [← List.append_assoc, List.take_append_drop]
    · have e1 : List.take 8 l = l := List.take_of_length_le (by omega)
      have e2 : List.drop 8 l = [] := List.drop_of_length_le (by omega)
      rw [e1, e2]
      simp only [List.nil_append, List.length_nil, Nat.sub_zero, List.append_assoc]
      rw [← List.replicate_add]
      congr 2
      omega

theorem packBitsAux_lt (k : Nat) (l : List Bool) : ∀ b ∈ packBitsAux k l, b < 256 := by
  induction k generalizing l with
  | zero => simp [packBitsAux]
  | succ k ih =>
    intro b hb
    rw [packBitsAux, List.mem_cons] at hb
    rcases hb with hb | hb
    · subst hb
      have h := bitsNat_lt (List.take 8 l ++ List.replicate (8 - (List.take 8 l).length) false)
      have hl : (List.take 8 l ++ List.replicate (8 - (List.take 8 l).length) false).length = 8 := by
        simp only [List.length_append, List.length_take, List.length_replicate]; omega
      rw [hl] at h
      exact h
    · exact ih _ b hb

theorem packBits_bits (l : List Bool) :
    bytesBits (packBits l) = l ++ List.replicate ((8 - l.length % 8) % 8) false := by
  rw [packBits, packBitsAux_bits _ _ (by omega)]
  congr 2
  omega

theorem packBits_cons (l : List Bool) (h : 8 ≤ l.length) :
    packBits l = bitsNat (l.take 8) :: packBits (l.drop 8) := by
  unfold packBits
  have e : (l.length + 7) / 8 = ((l.drop 8).length + 7) / 8 + 1 := by
    simp; omega
  rw [e, packBitsAux]
  have e1 : 8 - (List.take 8 l).length = 0 := by simp; omega
  rw [e1]
  simp

theorem byte_or (cur y k : Nat) (hi lo : List Bool) (hcur : cur < 256)
    (hbits : byteBits cur = hi ++ List.replicate k false) (hlo : lo.length = k)
    (hy : y = bitsNat lo) : cur ||| y = bitsNat (hi ++ lo) := by
  have hc : cur = bitsNat hi * 2 ^ k := by
    have e := bitsNat_byteBits cur hcur
    rw [hbits, bitsNat_append, bitsNat_replicate_false] at e
    simp at e
    exact e.symm
  have hylt : y < 2 ^ k := by
    rw [hy, ← hlo]; exact bitsNat_lt lo
  rw [bitsNat_append, hlo, ← hy, hc, Nat.mul_comm, Nat.mul_add_lt_is_or hylt]

theorem holds_last (bytes0 : List Nat) (off : Nat) (s : List Bool)
    (h : perRawBitData.Holds ⟨bytes0, off⟩ s) (hoff : off ≠ 0) :
    ∃ init cur hi, bytes0 = init ++ [cur] ∧ cur < 256 ∧ (∀ b ∈ init, b < 256) ∧
      s = bytesBits init ++ hi ∧ hi.length = off ∧
      byteBits cur = hi ++ List.replicate (8 - off) false := by
  obtain ⟨hlt, hb, hbits⟩ := h
  simp only at hlt hb hbits
  have hpad : (8 - off) % 8 = 8 - off := by omega
  rw [hpad] at hbits
  rcases List.eq_nil_or_concat bytes0 with rfl | ⟨init, cur, rfl⟩
  · have := congrArg List.length hbits
    simp [bytesBits] at this
    omega
  · rw [List.concat_eq_append] at hbits hb ⊢
    rw [bytesBits_append, bytesBits_singleton] at hbits
    have hlen := congrArg List.length hbits
    simp only [List.length_append, bytesBits_length, List.length_replicate, byteBits,
      natBits_length] at hlen
    rcases List.append_eq_append_iff.mp hbits with ⟨a, h1, h2⟩ | ⟨c, h1, h2⟩
    · refine ⟨init, cur, a, rfl, hb cur (by simp), fun b hb2 => hb b (by simp [hb2]), h1, ?_, h2⟩
      have := congrArg List.length h1
      simp only [List.length_append, bytesBits_length] at this
      omega
    · have := congrArg List.length h2
      simp only [List.length_append, List.length_replicate, byteBits, natBits_length] at this
      omega

/-! ## `putBitString` appends to the bit stream -/

theorem shift_bits (b0 off : Nat) (hb : b0 < 256) (hoff : off ≤ 8) :
    b0 >>> off = bitsNat ((byteBits b0).take (8 - off)) := by
  have h8 : 8 = (8 - off) + off := by omega
  have hs : byteBits b0 = natBits (8 - off) (b0 / 2 ^ off) ++ natBits off b0 := by
    rw [byteBits]
    conv_lhs => rw [h8]
    exact natBits_split _ _ _
  rw [hs, List.take_left' (natBits_length _ _), bitsNat_natBits, Nat.shiftRight_eq_div_pow]
  symm
  apply Nat.mod_eq_of_lt
  rw [Nat.div_lt_iff_lt_mul (Nat.two_pow_pos off), ← pow_add, ← h8]
  exact hb

theorem putBitString_holds (pd : perRawBitData) (s x : List Bool) (bytes : List Nat)
    (numBits : Nat) (h : pd.Holds s) (hn : numBits < 2 ^ 63) (hx : x.length = numBits)
    (hlen : bytes.length = (numBits + 7) / 8) (hb : ∀ b ∈ bytes, b < 256)
    (hbits : bytesBits bytes = x ++ List.replicate (8 * bytes.length - numBits) false)
    (hpos : 0 < numBits ∨ pd.bitsOffset = 0) :
    ∃ pd', putBitString pd bytes numBits = .ok pd' ∧ pd'.Holds (s ++ x) ∧
      pd'.bitsOffset = (pd.bitsOffset + numBits) % 8 := by
  obtain ⟨bytes0, off⟩ := pd
  have hh := h
  obtain ⟨hoff, hlt, hbits0⟩ := h
  simp only at hoff hlt hbits0 hpos
  unfold putBitString
  have hm : (numBits + 7) % 2 ^ 64 / 8 = (numBits + 7) / 8 := by
    rw [Nat.mod_eq_of_lt (by omega)]
  simp only [hm]
  rw [if_neg (by omega)]
  have htake : bytes.take ((numBits + 7) / 8) = bytes := List.take_of_length_le (by omega)
  simp only [htake]
  by_cases h0 : off = 0
  · subst h0
    simp only [if_true]
    refine ⟨_, rfl, ⟨?_, ?_, ?_⟩, ?_⟩
    · simp only; omega
    · intro b hb2
      simp only [List.mem_append] at hb2
      rcases hb2 with hb2 | hb2
      · exact hlt b hb2
      · exact hb b hb2
    · simp only [bytesBits_append, hbits0, hbits]
      simp only [Nat.sub_zero, Nat.mod_self, List.replicate_zero, List.append_nil,
        List.append_assoc]
      congr 3
      omega
    · simp
  · rw [if_neg h0]
    obtain ⟨init, cur, hi, rfl, hcur, hinit, rfl, hhi, hcurbits⟩ := holds_last bytes0 off s hh h0
    have hbl : subU64 8 off = 8 - off := by unfold subU64; omega
    have hnpos : 0 < numBits := by omega
    simp only [hbl, List.getLast?_concat, List.dropLast_concat]
    by_cases hcase : numBits ≤ 8 - off
    · rw [if_pos hcase]
      have hl1 : bytes.length = 1 := by omega
      obtain ⟨b0, rfl⟩ := List.length_eq_one.mp hl1
      simp only [List.head?_cons]
      have hb0 : b0 < 256 := hb b0 (by simp)
      rw [bytesBits_singleton] at hbits
      simp only [List.length_singleton, Nat.mul_one] at hbits
      have hlo : ((byteBits b0).take (8 - off)) = x ++ List.replicate (8 - off - numBits) false := by
        rw [hbits, List.take_append_eq_append_take, List.take_of_length_le (by omega),
          List.take_replicate]
        congr 2
        omega
      have hor := byte_or cur (b0 >>> off) (8 - off) hi _ hcur hcurbits
        (by rw [hlo]; simp; omega) (shift_bits b0 off hb0 (by omega))
      rw [hlo] at hor
      refine ⟨_, rfl, ⟨?_, ?_, ?_⟩, ?_⟩
      · simp only [bitCarry]; omega
      · intro b hb2
        simp only [bitCarry, List.mem_append, List.mem_singleton] at hb2
        rcases hb2 with hb2 | hb2
        · exact hinit b hb2
        · rw [hb2, hor]
          have := bitsNat_lt (hi ++ (x ++ List.replicate (8 - off - numBits) false))
          have hl : (hi ++ (x ++ List.replicate (8 - off - numBits) false)).length = 8 := by
            simp; omega
          rw [hl] at this
          exact this
      · simp only [bitCarry, bytesBits_append, bytesBits_singleton, hor]
        rw [byteBits_bitsNat _ (by simp; omega)]
        simp only [List.append_assoc]
        congr 4
        omega
      · simp only [bitCarry]; omega
    · rw [if_neg hcase]
      have hadd : addU64 off numBits = off + numBits := by
        unfold addU64; exact Nat.mod_eq_of_lt (by omega)
      unfold GetBitString
      rw [if_neg (by simp only [List.length_cons]; omega), hadd]
      have hsrc : ((bytesBits (0 :: bytes)).drop (8 - off)).take (off + numBits)
          = List.replicate off false ++ x := by
        rw [bytesBits, hbits]
        have hz : byteBits 0 = List.replicate (8 - off) false ++ List.replicate off false := by
          rw [← List.replicate_add, byteBits, natBits_zero_val]
          congr 1
          omega
        rw [hz, List.append_assoc, List.drop_left' (by simp), ← List.append_assoc,
          List.take_left' (by simp; omega)]
      rw [hsrc, packBits_cons _ (by simp; omega)]
      simp only
      have htk : (List.replicate off false ++ x).take 8
          = List.replicate off false ++ x.take (8 - off) := by
        rw [List.take_append_eq_append_take]
        simp only [List.take_replicate, List.length_replicate]
        congr 2
        omega
      have hdr : (List.replicate off false ++ x).drop 8 = x.drop (8 - off) := by
        rw [List.drop_append_eq_append_drop]
        simp only [List.drop_replicate, List.length_replicate]
        have : off - 8 = 0 := by omega
        rw [this]
        simp
      rw [htk, hdr]
      have hs0 : bitsNat (List.replicate off false ++ x.take (8 - off)) = bitsNat (x.take (8 - off)) := by
        rw [bitsNat_append, bitsNat_replicate_false]; simp
      have hor := byte_or cur _ (8 - off) hi (x.take (8 - off)) hcur hcurbits
        (by simp; omega) hs0
      refine ⟨_, rfl, ⟨?_, ?_, ?_⟩, ?_⟩
      · simp only [bitCarry]; omega
      · intro b hb2
        simp only [bitCarry, List.mem_append, List.mem_singleton] at hb2
        rcases hb2 with (hb2 | hb2) | hb2
        · exact hinit b hb2
        · rw [hb2, hor]
          have := bitsNat_lt (hi ++ x.take (8 - off))
          have hl : (hi ++ x.take (8 - off)).length = 8 := by
            simp; omega
          rw [hl] at this
          exact this
        · exact packBitsAux_lt _ _ b hb2
      · simp only [bitCarry, bytesBits_append, bytesBits_singleton, hor, packBits_bits]
        rw [byteBits_bitsNat _ (by simp; omega)]
        simp only [List.append_assoc]
        congr 2
        rw [← List.append_assoc, List.take_append_drop]
        congr 2
        simp only [List.length_drop]
        omega
      · simp only [bitCarry]; omega

/-! ## `putBitsValue` appends to the bit stream; the writer invariant -/

theorem putBitsValue_holds (pd : perRawBitData) (s : List Bool) (value numBits : Nat)
    (h : pd.Holds s) (h0 : 0 < numBits) (hn : numBits < 2 ^ 63) (hv : value < 2 ^ numBits) :
    ∃ pd', putBitsValue pd value numBits = .ok pd' ∧ pd'.Holds (s ++ natBits numBits value) ∧
      pd'.bitsOffset = (pd.bitsOffset + numBits) % 8 := by
  rw [putBitsValue_eq pd value numBits h0 hn, if_pos hv]
  apply putBitString_holds pd s _ _ numBits h hn (natBits_length _ _)
    (beBytes_length _ _) (beBytes_lt _ _) _ (Or.inl h0)
  rw [bytesBits_beBytes, beBytes_length]
  obtain ⟨k, hk⟩ : ∃ k, 8 * ((numBits + 7) / 8) = numBits + k :=
    ⟨8 * ((numBits + 7) / 8) - numBits, by omega⟩
  rw [hk, Nat.add_sub_cancel_left]
  exact natBits_mul_pow _ _ _

theorem holds_length (pd : perRawBitData) (s : List Bool) (h : pd.Holds s) :
    s.length = pd.bitLen := by
  obtain ⟨h1, _, h3⟩ := h
  have := congrArg List.length h3
  simp only [bytesBits_length, List.length_append, List.length_replicate] at this
  unfold perRawBitData.bitLen
  omega

theorem holds_bits (pd : perRawBitData) (s : List Bool) (h : pd.Holds s) : pd.bits = s := by
  have hl := holds_length pd s h
  unfold perRawBitData.bits
  rw [h.2.2, ← hl, List.take_left]

theorem holds_wf (pd : perRawBitData) (s : List Bool) (h : pd.Holds s) : pd.WF := by
  have hb := holds_bits pd s h
  obtain ⟨h1, h2, h3⟩ := h
  refine ⟨h1, h2, ?_, ?_⟩
  · intro hne hnil
    rw [hnil] at h3
    have := congrArg List.length h3
    simp [bytesBits] at this
    omega
  · rw [hb]; exact h3

theorem wf_holds (pd : perRawBitData) (h : pd.WF) : pd.Holds pd.bits :=
  ⟨h.1, h.2.1, h.2.2.2⟩

theorem wf_empty : perRawBitData.WF ⟨[], 0⟩ := by
  refine ⟨by decide, by simp, by simp, by decide⟩

theorem widthLoop_spec (fuel i : Nat) (bound : Int) :
    i ≤ widthLoop fuel i bound ∧ widthLoop fuel i bound ≤ i + fuel ∧
    (widthLoop fuel i bound < i + fuel → bound ≤ 2 ^ widthLoop fuel i bound) ∧
    ∀ j, i ≤ j → j < widthLoop fuel i bound → ¬ bound ≤ 2 ^ j := by
  induction fuel generalizing i with
  | zero =>
    simp only [widthLoop]
    refine ⟨le_refl _, by omega, by omega, by intro j h1 h2; omega⟩
  | succ fuel ih =>
    rw [widthLoop]
    by_cases hb : bound ≤ 2 ^ i
    · rw [if_pos hb]
      refine ⟨le_refl _, by omega, fun _ => hb, by intro j h1 h2; omega⟩
    · rw [if_neg hb]
      obtain ⟨h1, h2, h3, h4⟩ := ih (i + 1)
      refine ⟨by omega, by omega, fun hlt => h3 (by omega), ?_⟩
      intro j hj1 hj2
      by_cases hji : j = i
      · rw [hji]; exact hb
      · exact h4 j (by omega) hj2

theorem widthLoop_small (bound : Int) (h : bound ≤ 255) :
    1 ≤ widthLoop 8 1 bound ∧ widthLoop 8 1 bound ≤ 8 ∧ bound ≤ 2 ^ widthLoop 8 1 bound ∧
    ∀ m, 1 ≤ m → bound ≤ 2 ^ m → widthLoop 8 1 bound ≤ m := by
  obtain ⟨h1, h2, h3, h4⟩ := widthLoop_spec 8 1 bound
  have h8 : widthLoop 8 1 bound ≤ 8 := by
    by_contra hc
    exact h4 8 (by omega) (by omega) (by norm_num; omega)
  refine ⟨h1, h8, h3 (by omega), ?_⟩
  intro m hm hbm
  by_contra hc
  exact h4 m hm (by omega) hbm

/-! ## Constrained INTEGER with a small range -/

theorem putBitsValue_empty (value n : Nat) (h1 : 1 ≤ n) (h8 : n ≤ 8) (hv : value < 2 ^ n) :
    putBitsValue ⟨[], 0⟩ value n = .ok ⟨[value * 2 ^ (8 - n)], n % 8⟩ := by
  rw [putBitsValue_eq _ _ _ (by omega) (by omega), if_pos hv]
  have hm : (n + 7) / 8 = 1 := by omega
  rw [hm, putBitString_aligned _ _ _ (by omega) (by rw [beBytes_length, hm])]
  have hlt : value * 2 ^ (8 - n) < 256 := by
    have h256 : (256 : Nat) = 2 ^ n * 2 ^ (8 - n) := by
      rw [← pow_add]
      have : n + (8 - n) = 8 := by omega
      rw [this]
      norm_num
    rw [h256]
    exact Nat.mul_lt_mul_of_pos_right hv (Nat.two_pow_pos _)
  simp [beBytes, Nat.mod_eq_of_lt hlt]

/-- C2: for a non-extensible INTEGER with both bounds given, `lb ≤ value ≤ ub` and
`2 ≤ ub - lb + 1 ≤ 255`, `appendInteger` on a writer satisfying the invariant succeeds and
appends exactly the `n` bits of `value - lb`, most significant bit first, with no alignment
(`bitsOffset` advances by `n` modulo 8 and the invariant is kept), where `n` is the least
number in `[1,8]` with `2 ^ n ≥ ub - lb + 1`. On the empty writer the result is the single
octet `(value - lb) * 2 ^ (8 - n)` with `bitsOffset = n % 8`; value 5 with bounds 0 and 7
gives `0xA0`. -/
theorem appendInteger_constrained_bits (pd : perRawBitData) (value lb ub : Int)
    (hwf : pd.WF) (hlb : lb ≤ value) (hub : value ≤ ub)
    (h2 : 2 ≤ ub - lb + 1) (h255 : ub - lb + 1 ≤ 255) :
    ∃ n pd', 1 ≤ n ∧ n ≤ 8 ∧ ub - lb + 1 ≤ 2 ^ n ∧
      (∀ m : Nat, 1 ≤ m → ub - lb + 1 ≤ 2 ^ m → n ≤ m) ∧
      appendInteger pd value false (some lb) (some ub) = .ok pd' ∧
      pd'.bits = pd.bits ++ natBits n (value - lb).toNat ∧
      pd'.bitsOffset = (pd.bitsOffset + n) % 8 ∧ pd'.WF ∧
      (pd = ⟨[], 0⟩ → pd' = ⟨[(value - lb).toNat * 2 ^ (8 - n)], n % 8⟩) ∧
      appendInteger ⟨[], 0⟩ 5 false (some 0) (some 7) = .ok ⟨[0xA0], 3⟩ := by
  obtain ⟨w1, w8, wb, wmin⟩ := widthLoop_small (ub - lb + 1) h255
  have hr : toInt64 (ub - lb + 1) = ub - lb + 1 := by unfold toInt64; omega
  have hv : toUint64 (toInt64 (value - lb)) = (value - lb).toNat := by
    unfold toUint64 toInt64; omega
  have hvlt : (value - lb).toNat < 2 ^ widthLoop 8 1 (ub - lb + 1) := by
    have : ((value - lb).toNat : Int) < 2 ^ widthLoop 8 1 (ub - lb + 1) := by
      rw [Int.toNat_of_nonneg (by omega)]
      omega
    exact_mod_cast this
  have hrun : appendInteger pd value false (some lb) (some ub)
      = putBitsValue pd (value - lb).toNat (widthLoop 8 1 (ub - lb + 1)) := by
    unfold appendInteger
    simp only [if_neg (not_lt.mpr hlb), if_pos hub, hr]
    simp only [hub, not_true_eq_false, false_and, if_false, Bool.false_eq_true]
    unfold integerBody
    rw [if_neg (by omega)]
    simp only
    rw [if_neg (by omega), if_pos (by omega), hv]
    unfold appendConstraintValue
    rw [if_pos h255, if_neg (by omega)]
  obtain ⟨pd', hput, hholds, hoff⟩ := putBitsValue_holds pd pd.bits (value - lb).toNat
    (widthLoop 8 1 (ub - lb + 1)) (wf_holds pd hwf) (by omega) (by omega) hvlt
  refine ⟨widthLoop 8 1 (ub - lb + 1), pd', w1, w8, wb, wmin, ?_, holds_bits _ _ hholds, hoff,
    holds_wf _ _ hholds, ?_, by decide⟩
  · rw [hrun, hput]
  · intro hpd
    rw [hpd, putBitsValue_empty _ _ w1 w8 hvlt] at hput
    exact (Outcome.ok.inj hput).symm

theorem appendInteger_constrained_bits_witness :
    perRawBitData.WF ⟨[], 0⟩ ∧ (0 : Int) ≤ 5 ∧ (5 : Int) ≤ 7 ∧ (2 : Int) ≤ 7 - 0 + 1 ∧
    (7 : Int) - 0 + 1 ≤ 255 ∧
    ∃ n pd', 1 ≤ n ∧ n ≤ 8 ∧ (7 : Int) - 0 + 1 ≤ 2 ^ n ∧
      (∀ m : Nat, 1 ≤ m → (7 : Int) - 0 + 1 ≤ 2 ^ m → n ≤ m) ∧
      appendInteger ⟨[], 0⟩ 5 false (some 0) (some 7) = .ok pd' ∧
      pd'.bits = (perRawBitData.bits ⟨[], 0⟩) ++ natBits n ((5 : Int) - 0).toNat ∧
      pd'.bitsOffset = (0 + n) % 8 ∧ pd'.WF ∧
      ((⟨[], 0⟩ : perRawBitData) = ⟨[], 0⟩ → pd' = ⟨[((5 : Int) - 0).toNat * 2 ^ (8 - n)], n % 8⟩) ∧
      appendInteger ⟨[], 0⟩ 5 false (some 0) (some 7) = .ok ⟨[0xA0], 3⟩ :=
  ⟨wf_empty, by decide, by decide, by decide, by decide,
    appendInteger_constrained_bits ⟨[], 0⟩ 5 0 7 wf_empty (by decide) (by decide) (by decide)
      (by decide)⟩

/-! ## Unconstrained INTEGER: length and two-complement form -/

theorem rawLengthLoop_spec (fuel r u : Nat) :
    r ≤ rawLengthLoop fuel r u ∧
    (u < 256 ^ fuel → u < 256 ^ (rawLengthLoop fuel r u - r)) ∧
    ∀ j, r + j < rawLengthLoop fuel r u → 256 ^ j ≤ u := by
  induction fuel generalizing r u with
  | zero =>
    simp only [rawLengthLoop]
    refine ⟨le_refl _, ?_, ?_⟩
    · intro h; simpa using h
    · intro j hj; omega
  | succ fuel ih =>
    rw [rawLengthLoop]
    by_cases hu : u = 0
    · rw [if_pos hu]
      refine ⟨le_refl _, ?_, ?_⟩
      · intro _; rw [hu]; exact pow_pos (by norm_num) _
      · intro j hj; omega
    · rw [if_neg hu]
      obtain ⟨h1, h2, h3⟩ := ih (r + 1) (u / 256)
      refine ⟨by omega, ?_, ?_⟩
      · intro hlt
        have hd : u / 256 < 256 ^ fuel := by
          rw [Nat.div_lt_iff_lt_mul (by norm_num), ← pow_succ]; exact hlt
        have := h2 hd
        rw [Nat.div_lt_iff_lt_mul (by norm_num), ← pow_succ] at this
        have e : rawLengthLoop fuel (r + 1) (u / 256) - (r + 1) + 1
            = rawLengthLoop fuel (r + 1) (u / 256) - r := by omega
        rw [e] at this
        exact this
      · intro j hj
        cases j with
        | zero => simp; omega
        | succ j =>
          have := h3 j (by omega)
          rw [pow_succ]
          exact (Nat.le_div_iff_mul_le (by norm_num)).mp this

theorem ldiff_mask (k m : Nat) : Nat.ldiff (2 ^ k - 1) m = 2 ^ k - 1 - m % 2 ^ k := by
  apply Nat.eq_of_testBit_eq
  intro i
  have hlt : m % 2 ^ k < 2 ^ k := Nat.mod_lt _ (Nat.two_pow_pos k)
  have e : 2 ^ k - 1 - m % 2 ^ k = 2 ^ k - (m % 2 ^ k + 1) := by omega
  rw [Nat.testBit_ldiff, Nat.testBit_two_pow_sub_one, e, Nat.testBit_two_pow_sub_succ hlt,
    Nat.testBit_mod_two_pow]
  by_cases h : i < k <;> simp [h]

theorem land_mask (value : Int) (k : Nat) :
    Int.land value (2 ^ k - 1) = value % 2 ^ k := by
  have hmask : (2 ^ k - 1 : Int) = ((2 ^ k - 1 : Nat) : Int) := by
    have := Nat.two_pow_pos k
    push_cast [Nat.cast_sub this]
    rfl
  rw [hmask]
  cases value with
  | ofNat m =>
    show ((Nat.land m (2 ^ k - 1) : Nat) : Int) = _
    have : Nat.land m (2 ^ k - 1) = m % 2 ^ k := Nat.and_pow_two_sub_one_eq_mod m k
    rw [this]
    simp
  | negSucc m =>
    show ((Nat.ldiff (2 ^ k - 1) m : Nat) : Int) = _
    rw [ldiff_mask]
    have hp := Nat.two_pow_pos k
    have hlt : m % 2 ^ k < 2 ^ k := Nat.mod_lt _ hp
    have hdecomp : (Int.negSucc m) = ((2 ^ k - 1 - m % 2 ^ k : Nat) : Int) + (-(m / 2 ^ k : Nat) - 1) * (2 ^ k : Nat) := by
      have h1 := Nat.div_add_mod m (2 ^ k)
      rw [Int.negSucc_eq]
      push_cast [Nat.cast_sub (show m % 2 ^ k ≤ 2 ^ k - 1 by omega), Nat.cast_sub hp]
      have h2 : (m : Int) = 2 ^ k * (m / 2 ^ k : Nat) + (m % 2 ^ k : Nat) := by
        exact_mod_cast h1.symm
      push_cast at h2
      linear_combination (-1 : Int) * h2
    conv_rhs => rw [hdecomp]
    push_cast
    rw [Int.add_mul_emod_self]
    symm
    apply Int.emod_eq_of_lt
    · push_cast [Nat.cast_sub (show m % 2 ^ k ≤ 2 ^ k - 1 by omega), Nat.cast_sub hp]
      have : ((m % 2 ^ k : Nat) : Int) < 2 ^ k := by exact_mod_cast hlt
      push_cast at this
      omega
    · push_cast [Nat.cast_sub (show m % 2 ^ k ≤ 2 ^ k - 1 by omega), Nat.cast_sub hp]
      have : (0 : Int) ≤ ((m % 2 ^ k : Nat) : Int) := Int.ofNat_nonneg _
      push_cast at this
      omega

theorem magnitude_neg (value : Int) (hmin : -2 ^ 63 ≤ value) (hneg : value < 0) :
    subU64 (toUint64 (toInt64 (Int.xor value (Int.shiftRight value 63) - Int.shiftRight value 63))) 1
      = (-value - 1).toNat := by
  cases value with
  | ofNat m => exact absurd hneg (by simp)
  | negSucc m =>
    have hm : m < 2 ^ 63 := by
      rw [Int.negSucc_eq] at hmin
      omega
    have hsh : Int.shiftRight (Int.negSucc m) 63 = Int.negSucc 0 := by
      have : Int.shiftRight (Int.negSucc m) 63 = Int.negSucc (m >>> 63) := rfl
      rw [this, Nat.shiftRight_eq_div_pow, Nat.div_eq_of_lt hm]
    rw [hsh]
    have hx : Int.xor (Int.negSucc m) (Int.negSucc 0) = (m : Int) := by
      have : Int.xor (Int.negSucc m) (Int.negSucc 0) = ((Nat.xor m 0 : Nat) : Int) := rfl
      rw [this]
      have h0 : Nat.xor m 0 = m := Nat.xor_zero m
      rw [h0]
    rw [hx]
    have e1 : (-(Int.negSucc m) - 1).toNat = m := by
      rw [Int.negSucc_eq]; omega
    rw [e1]
    have e2 : Int.negSucc 0 = -1 := rfl
    rw [e2]
    unfold subU64 toUint64 toInt64
    clear hsh hx e1 e2 hmin hneg
    omega

theorem land_neg_one (value : Int) : Int.land value (-1) = value := by
  have e : (-1 : Int) = Int.negSucc 0 := rfl
  rw [e]
  cases value with
  | ofNat m =>
    have h : Int.land (Int.ofNat m) (Int.negSucc 0) = ((Nat.ldiff m 0 : Nat) : Int) := rfl
    rw [h]
    have h0 : Nat.ldiff m 0 = m := by
      apply Nat.eq_of_testBit_eq
      intro i
      rw [Nat.testBit_ldiff]
      simp
    rw [h0]
    rfl
  | negSucc m =>
    have h : Int.land (Int.negSucc m) (Int.negSucc 0) = Int.negSucc (Nat.lor m 0) := rfl
    rw [h]
    have h0 : Nat.lor m 0 = m := Nat.or_zero m
    rw [h0]

theorem mod_toNat_lt (value : Int) (k : Nat) : (value % 2 ^ k).toNat < 2 ^ k := by
  have hp : (0 : Int) < 2 ^ k := by positivity
  have h1 := Int.emod_lt_of_pos value hp
  have h0 := Int.emod_nonneg value (ne_of_gt hp)
  have : ((value % 2 ^ k).toNat : Int) < ((2 ^ k : Nat) : Int) := by
    rw [Int.toNat_of_nonneg h0]
    push_cast
    exact h1
  exact_mod_cast this

theorem masked_value (value : Int) (n : Nat) (h1 : 1 ≤ n) (h8 : n ≤ 8) :
    toUint64 (Int.land value (toInt64 ((if n * 8 < 64 then 2 ^ (n * 8) else 0) - 1)))
      = (value % 2 ^ (8 * n)).toNat := by
  have hc : n * 8 = 8 * n := Nat.mul_comm _ _
  by_cases h : n * 8 < 64
  · rw [if_pos h]
    have hk : toInt64 ((2 : Int) ^ (n * 8) - 1) = 2 ^ (n * 8) - 1 := by
      have hn7 : n ≤ 7 := by omega
      interval_cases n <;> simp [toInt64]
    rw [hk, land_mask, hc]
    unfold toUint64
    have hp : (0 : Int) < 2 ^ (8 * n) := by positivity
    have hle : (2 : Int) ^ (8 * n) ≤ 2 ^ 64 := pow_le_pow_right₀ (by norm_num) (by omega)
    rw [Int.emod_eq_of_lt (a := value % 2 ^ (8 * n)) (Int.emod_nonneg _ (ne_of_gt hp))
      (lt_of_lt_of_le (Int.emod_lt_of_pos _ hp) hle)]
  · rw [if_neg h]
    have hn : n = 8 := by omega
    subst hn
    have hk : toInt64 (0 - 1) = -1 := by simp [toInt64]
    rw [hk, land_neg_one]
    rfl

theorem integerBody_unconstrained (pd : perRawBitData) (value lb : Int)
    (hmin : -2 ^ 63 ≤ value) (hmax : value < 2 ^ 63) :
    integerBody pd value lb (-1)
      = integerLong pd value lb (-1) ((if value < 0 then -value - 1 else value).toNat / 2 ^ 7) := by
  unfold integerBody
  rw [if_neg (by decide)]
  simp only
  rw [if_pos (by decide)]
  by_cases hneg : value < 0
  · rw [if_pos hneg, if_pos hneg, magnitude_neg value hmin hneg]
  · rw [if_neg hneg, if_neg hneg]
    unfold toUint64
    rw [Int.emod_eq_of_lt (by omega) (by omega)]

theorem unconstrained_length (value : Int) (hmin : -2 ^ 63 ≤ value) (hmax : value < 2 ^ 63) :
    ∃ n : Nat, rawLengthLoop 127 1 ((if value < 0 then -value - 1 else value).toNat / 2 ^ 7) = n ∧
      1 ≤ n ∧ n ≤ 8 ∧ -2 ^ (8 * n - 1) ≤ value ∧ value < 2 ^ (8 * n - 1) ∧
      (∀ m : Nat, 1 ≤ m → -2 ^ (8 * m - 1) ≤ value → value < 2 ^ (8 * m - 1) → n ≤ m) := by
  obtain ⟨a, ha⟩ : ∃ a : Nat, (if value < 0 then -value - 1 else value).toNat = a := ⟨_, rfl⟩
  have haval : (a : Int) = if value < 0 then -value - 1 else value := by
    rw [← ha]
    split <;> omega
  have ha63 : a < 2 ^ 63 := by
    split at haval <;> omega
  rw [ha]
  obtain ⟨hA, hB, hC⟩ := rawLengthLoop_spec 127 1 (a / 2 ^ 7)
  obtain ⟨n, hn⟩ : ∃ n, rawLengthLoop 127 1 (a / 2 ^ 7) = n := ⟨_, rfl⟩
  rw [hn] at hA hB hC
  have h8 : n ≤ 8 := by
    by_contra hc
    have := hC 7 (by omega)
    norm_num at this
    omega
  have hB2 : a / 2 ^ 7 < 256 ^ (n - 1) := by
    apply hB
    have : a / 2 ^ 7 < 256 ^ 7 := by norm_num; omega
    exact lt_of_lt_of_le this (Nat.pow_le_pow_right (by norm_num) (by norm_num))
  have hlow : 2 ≤ n → 256 ^ (n - 2) ≤ a / 2 ^ 7 := fun h => hC (n - 2) (by omega)
  refine ⟨n, hn, hA, h8, ?_, ?_, ?_⟩
  · clear hB hC hlow
    interval_cases n <;> norm_num at hB2 ⊢ <;> split at haval <;> omega
  · clear hB hC hlow
    interval_cases n <;> norm_num at hB2 ⊢ <;> split at haval <;> omega
  · intro m hm hm1 hm2
    by_contra hc
    have hmn : m < n := by omega
    have hn2 : 2 ≤ n := by omega
    have hl := hlow hn2
    clear hB hC hlow hB2
    interval_cases n <;> interval_cases m <;> norm_num at hl hm1 hm2 <;> split at haval <;> omega

/-- C3: for every `int64` value encoded with no lower bound (whatever the upper bound and
the extensible flag), `appendInteger` succeeds; it aligns the writer and appends the octet
`n` followed by the `n` octets of `value mod 2 ^ (8 n)` in big-endian order (the
two-complement form of `value`), where `n` is the least number in `[1,8]` with
`-2 ^ (8 n - 1) ≤ value ≤ 2 ^ (8 n - 1) - 1`; the writer ends with `bitsOffset = 0`. -/
theorem appendInteger_unconstrained (pd : perRawBitData) (value : Int) (extensive : Bool)
    (upperBoundPtr : Option Int) (hmin : -2 ^ 63 ≤ value) (hmax : value < 2 ^ 63) :
    ∃ n : Nat, 1 ≤ n ∧ n ≤ 8 ∧ -2 ^ (8 * n - 1) ≤ value ∧ value < 2 ^ (8 * n - 1) ∧
      (∀ m : Nat, 1 ≤ m → -2 ^ (8 * m - 1) ≤ value → value < 2 ^ (8 * m - 1) → n ≤ m) ∧
      appendInteger pd value extensive none upperBoundPtr
        = .ok ⟨pd.bytes ++ n :: beBytes n (value % 2 ^ (8 * n)).toNat, 0⟩ := by
  obtain ⟨n, hn, h1, h8, hlo, hhi, hmin2⟩ := unconstrained_length value hmin hmax
  refine ⟨n, h1, h8, hlo, hhi, hmin2, ?_⟩
  have hrun : appendInteger pd value extensive none upperBoundPtr = integerBody pd value 0 (-1) := rfl
  rw [hrun, integerBody_unconstrained pd value 0 hmin hmax]
  unfold integerLong
  simp only [hn]
  rw [if_pos (by decide)]
  simp only [Outcome.andThen, appendAlignBits]
  rw [if_pos (by decide), masked_value value n h1 h8,
    putBitsValue_octets _ n _ (by omega) (by omega) (mod_toNat_lt value (8 * n))]
  have hmod : n % 256 = n := Nat.mod_eq_of_lt (by omega)
  rw [hmod]
  simp

theorem appendInteger_unconstrained_witness :
    (-2 ^ 63 ≤ (-129 : Int)) ∧ ((-129 : Int) < 2 ^ 63) ∧
    ∃ n : Nat, 1 ≤ n ∧ n ≤ 8 ∧ -2 ^ (8 * n - 1) ≤ (-129 : Int) ∧ (-129 : Int) < 2 ^ (8 * n - 1) ∧
      (∀ m : Nat, 1 ≤ m → -2 ^ (8 * m - 1) ≤ (-129 : Int) → (-129 : Int) < 2 ^ (8 * m - 1) → n ≤ m) ∧
      appendInteger ⟨[0x80], 1⟩ (-129) false none none
        = .ok ⟨[0x80] ++ n :: beBytes n ((-129 : Int) % 2 ^ (8 * n)).toNat, 0⟩ :=
  ⟨by decide, by decide,
    appendInteger_unconstrained ⟨[0x80], 1⟩ (-129) false none (by decide) (by decide)⟩

/-! ## Length determinants and fragments on whole octets -/

theorem putBitsValue_octet (bs : List Nat) (value : Nat) (hv : value < 256) :
    putBitsValue ⟨bs, 0⟩ value 8 = .ok ⟨bs ++ [value], 0⟩ := by
  have h := putBitsValue_octets bs 1 value (by decide) (by decide) (by simpa using hv)
  simpa [beBytes, Nat.mod_eq_of_lt hv] using h

theorem appendLength_fragment (pd : perRawBitData) (value : Nat) (h1 : 16384 ≤ value)
    (h2 : value ≤ 65536) :
    appendLength pd (-1) value = .ok ⟨pd.bytes ++ [(value >>> 14) ||| 0xc0], 0⟩ := by
  unfold appendLength
  rw [if_neg (by decide)]
  simp only [appendAlignBits]
  rw [if_neg (by omega), if_neg (by omega)]
  apply putBitsValue_octet
  have hs : value >>> 14 < 2 ^ 8 := by
    rw [Nat.shiftRight_eq_div_pow]
    omega
  exact Nat.or_lt_two_pow hs (by decide)

theorem appendLength_short (pd : perRawBitData) (value : Nat) (h : value ≤ 127) :
    appendLength pd (-1) value = .ok ⟨pd.bytes ++ [value], 0⟩ := by
  unfold appendLength
  rw [if_neg (by decide)]
  simp only [appendAlignBits]
  rw [if_pos h]
  exact putBitsValue_octet _ _ (by omega)

theorem appendOctetString_len65536 (pd : perRawBitData) (bytes : List Nat)
    (h : bytes.length = 65536) :
    appendOctetString pd bytes false none none = .ok ⟨pd.bytes ++ [0], 0⟩ := by
  unfold appendOctetString octetStringBody
  simp only [h]
  rw [if_neg (by decide), if_neg (by decide)]
  have e : subU64 65536 (toUint64 0) = 65536 := by decide
  rw [e, octetStringLoop]
  have hp : fragmentPart 65536 = 0 := by decide
  simp only [hp]
  rw [appendLength_short pd 0 (by decide)]
  simp only [Outcome.andThen]
  rw [if_pos (by decide)]

theorem appendOctetString_len16384 (pd : perRawBitData) (bytes : List Nat)
    (h : bytes.length = 16384) :
    appendOctetString pd bytes false none none = .ok ⟨pd.bytes ++ 0xC1 :: bytes, 0⟩ := by
  unfold appendOctetString octetStringBody
  simp only [h]
  rw [if_neg (by decide), if_neg (by decide)]
  have e : subU64 16384 (toUint64 0) = 16384 := by decide
  rw [e, octetStringLoop]
  have hp : fragmentPart 16384 = 16384 := by decide
  simp only [hp]
  rw [appendLength_fragment pd 16384 (by decide) (by decide)]
  simp only [Outcome.andThen, appendAlignBits]
  have e2 : addU64 16384 (toUint64 0) = 16384 := by decide
  have e3 : addU64 0 16384 = 16384 := by decide
  have e4 : subU64 16384 (subU64 16384 (toUint64 0)) = 0 := by decide
  have e5 : (16384 >>> 14 ||| 192) = 193 := by decide
  have hs : goSlice bytes 0 16384 = some bytes := by
    unfold goSlice
    rw [if_neg (by omega)]
    simp [← h]
  simp only [e2, e3, e4, e5, hs]
  rw [if_neg (by decide), if_neg (by decide)]
  simp

theorem openTypeEmit_len16384 (pd inner : perRawBitData) (h : inner.bytes.length = 16384) :
    openTypeEmit pd (.ok inner) = .ok ⟨pd.bytes ++ 0xC1 :: inner.bytes, 0⟩ := by
  unfold openTypeEmit
  simp only [h]
  rw [openTypeLoop]
  have hp : fragmentPart 16384 = 16384 := by decide
  simp only [hp]
  rw [appendLength_fragment pd 16384 (by decide) (by decide)]
  simp only [Outcome.andThen, appendAlignBits]
  have e3 : addU64 0 16384 = 16384 := by decide
  have e4 : subU64 16384 16384 = 0 := by decide
  have e5 : (16384 >>> 14 ||| 192) = 193 := by decide
  have hs : goSlice inner.bytes 0 16384 = some inner.bytes := by
    unfold goSlice
    rw [if_neg (by omega)]
    simp [← h]
  simp only [e3, e4, e5, hs]
  rw [if_neg (by decide), if_neg (by decide)]
  simp

theorem appendOctetString_fixed_long (pd : perRawBitData) (bytes : List Nat)
    (h2 : 2 < bytes.length) (h3 : bytes.length ≤ 65535) :
    appendOctetString pd bytes false (some bytes.length) (some bytes.length)
      = .ok ⟨pd.bytes ++ bytes, 0⟩ := by
  have hu : toUint64 (bytes.length : Int) = bytes.length := by
    unfold toUint64; omega
  have hr : toInt64 ((bytes.length : Int) - bytes.length + 1) = 1 := by
    unfold toInt64; omega
  unfold appendOctetString
  simp only [hu, le_refl, if_true, hr, not_true_eq_false, false_and, if_false,
    Bool.false_eq_true]
  unfold octetStringBody
  have hgt : ¬ ((bytes.length : Int) > 65535) := by omega
  simp only [hu, hgt, if_false, if_true, ne_eq, not_true_eq_false, h2, appendAlignBits]

/-! ## The entry point -/

/-- `MarshalWithParams` passes on what the walk over the fresh writer produced: the
error without bytes, the octets of the writer (one zero octet when there are none), a
panic, or divergence. -/
theorem MarshalWithParams_cases (val : Value) (params : fieldParameters) :
    (∃ e pd, makeField ⟨[], 0⟩ val params = .error e pd ∧
      MarshalWithParams val params = .returned none (some e)) ∨
    (∃ pd, makeField ⟨[], 0⟩ val params = .ok pd ∧
      MarshalWithParams val params
        = .returned (some (if pd.bytes = [] then [0] else pd.bytes)) none ∧
      1 ≤ (if pd.bytes = [] then [0] else pd.bytes).length) ∨
    (makeField ⟨[], 0⟩ val params = .panic ∧ MarshalWithParams val params = .panic) ∨
    (makeField ⟨[], 0⟩ val params = .diverge ∧ MarshalWithParams val params = .diverge) := by
  unfold MarshalWithParams
  cases h : makeField ⟨[], 0⟩ val params with
  | ok pd =>
    right; left
    obtain ⟨bytes, off⟩ := pd
    refine ⟨_, rfl, ?_, ?_⟩
    · cases bytes with
      | nil => simp
      | cons b bs => simp
    · cases bytes with
      | nil => simp
      | cons b bs => simp
  | error e pd => left; exact ⟨e, pd, rfl, rfl⟩
  | panic => right; right; left; exact ⟨rfl, rfl⟩
  | diverge => right; right; right; exact ⟨rfl, rfl⟩

/-! ## Where the encoder departs from the specification -/

/-- C1: `MarshalWithParams` does not return for every input. For the one-octet OCTET STRING
`[0x01]` under the parameters `sizeLB:2` (no upper bound) the walk panics at the slice
`bytes[0:65538]` of `appendOctetString`; for the SEQUENCE of a BOOLEAN and an empty OCTET
STRING of fixed size 0 (`sizeLB:0,sizeUB:0`) it panics at `bytes[0]` of `putBitString`.
Neither an error nor octets are returned. -/
theorem MarshalWithParams_panics_on_short_octetString :
    MarshalWithParams (.octetString [0x01])
      ⟨false, false, false, some 2, none, none, none, false, "", none⟩ = .panic ∧
    MarshalWithParams
      (.struct (.cons "A" true ⟨false, false, false, none, none, none, none, false, "", none⟩
        (.bool true)
        (.cons "B" true ⟨false, false, false, some 0, some 0, none, none, false, "", none⟩
          (.octetString []) .nil)))
      ⟨false, false, false, none, none, none, none, false, "", none⟩ = .panic := by
  decide

/-- C4: an unconstrained OCTET STRING of 65536 octets is encoded as the single length octet
`0x00` and no payload: at `rawLength = 65536` the fragment size `rawLength & 0xc000` is 0,
not the largest multiple of 16384 that fits, and the 65536 octets are never appended. -/
theorem appendOctetString_65536_loses_payload :
    appendOctetString ⟨[], 0⟩ (List.replicate 65536 0) false none none = .ok ⟨[0], 0⟩ :=
  appendOctetString_len65536 ⟨[], 0⟩ _ (List.length_replicate _ _)

/-- C5: an unconstrained OCTET STRING of 16384 octets, and an OPEN TYPE whose inner encoding
has 16384 octets (here a fixed-size OCTET STRING of 16384 octets), are encoded as the
fragment length octet `0xC1` followed by the 16384 octets and nothing else: the last length
determinant is the fragment form, and no zero-length fragment follows. -/
theorem appendOctetString_16384_without_final_length :
    appendOctetString ⟨[], 0⟩ (List.replicate 16384 0) false none none
      = .ok ⟨0xC1 :: List.replicate 16384 0, 0⟩ ∧
    appendOpenType ⟨[], 0⟩ (.octetString (List.replicate 16384 0))
        ⟨false, false, false, some 16384, some 16384, none, none, false, "", none⟩
      = .ok ⟨0xC1 :: List.replicate 16384 0, 0⟩ := by
  have hl : (List.replicate 16384 (0 : Nat)).length = 16384 := List.length_replicate _ _
  refine ⟨appendOctetString_len16384 ⟨[], 0⟩ _ hl, ?_⟩
  have hin : makeField ⟨[], 0⟩ (.octetString (List.replicate 16384 0))
      ⟨false, false, false, some 16384, some 16384, none, none, false, "", none⟩
      = .ok ⟨List.replicate 16384 0, 0⟩ := by
    rw [makeField]
    have := appendOctetString_fixed_long ⟨[], 0⟩ (List.replicate 16384 0)
      (by rw [hl]; decide) (by rw [hl]; decide)
    rw [hl] at this
    exact this
  unfold appendOpenType
  rw [hin]
  exact openTypeEmit_len16384 ⟨[], 0⟩ ⟨List.replicate 16384 0, 0⟩ hl

/-- C6: for the non-extensible INTEGER with bounds 0 and 65536 (range 65537) the in-range
value 65536 is rejected: `rawLength` is 3, the length field is given 1 bit, and
`putBitsValue(2, 1)` returns the error `bits Value is over capacity`. -/
theorem appendInteger_large_range_rejects_in_range :
    appendInteger ⟨[], 0⟩ 65536 false (some 0) (some 65536)
      = .error .bitsOverCapacity ⟨[], 0⟩ := by
  decide

/-- C7: for a semi-constrained INTEGER the length octet is computed from `value` as for a
signed number, not from `value - lb`: value 100 with lower bound -1000 is rejected after the
length octet 1 has been appended (1100 does not fit one octet), and value 128 with lower
bound 0 is encoded in two octets `00 80` after the length octet 2. -/
theorem appendInteger_semi_constrained_length :
    appendInteger ⟨[], 0⟩ 100 false (some (-1000)) none = .error .bitsOverCapacity ⟨[1], 0⟩ ∧
    appendInteger ⟨[], 0⟩ 128 false (some 0) none = .ok ⟨[2, 0, 128], 0⟩ := by
  decide

/-- C8, as the code has it: with a lower bound given, `appendInteger` returns an error when
`value < lb` (whatever the upper bound and the extensible flag) and, for a non-extensible
constraint with an upper bound, when `value > ub`; with no lower bound the upper bound is
not consulted, the result being that of the unconstrained encoding. -/
theorem appendInteger_bound_errors (pd : perRawBitData) (value lb : Int) (extensive : Bool)
    (upperBoundPtr : Option Int)
    (h : value < lb ∨ ∃ ub, upperBoundPtr = some ub ∧ ub < value ∧ extensive = false) :
    (appendInteger pd value extensive (some lb) upperBoundPtr).isError ∧
    ∀ ub, appendInteger pd value extensive none (some ub)
      = appendInteger pd value extensive none none := by
  refine ⟨?_, fun _ => rfl⟩
  unfold appendInteger
  by_cases hlt : value < lb
  · exact ⟨.integerBelowLower, pd, by simp only [if_pos hlt]⟩
  · rcases h with h | ⟨ub, rfl, hub, rfl⟩
    · exact absurd h hlt
    · refine ⟨.integerAboveUpper, pd, ?_⟩
      simp only [if_neg hlt]
      rw [if_pos ⟨not_le.mpr hub, trivial⟩]

theorem appendInteger_bound_errors_witness :
    ((10 : Int) < 0 ∨ ∃ ub, some (5 : Int) = some ub ∧ ub < 10 ∧ false = false) ∧
    (appendInteger ⟨[], 0⟩ 10 false (some 0) (some 5)).isError ∧
    ∀ ub, appendInteger ⟨[], 0⟩ 10 false none (some ub)
      = appendInteger ⟨[], 0⟩ 10 false none none :=
  ⟨Or.inr ⟨5, rfl, by decide, rfl⟩,
    appendInteger_bound_errors ⟨[], 0⟩ 10 0 false (some 5) (Or.inr ⟨5, rfl, by decide, rfl⟩)⟩

/-- C8 fails as stated: with the upper bound 5 given, no lower bound and a non-extensible
constraint, the value 10 is encoded (length octet 1, octet 10) and no error is returned. -/
theorem appendInteger_upper_bound_alone_not_checked :
    appendInteger ⟨[], 0⟩ 10 false none (some 5) = .ok ⟨[1, 10], 0⟩ ∧
    ¬ (appendInteger ⟨[], 0⟩ 10 false none (some 5)).isError := by
  have h : appendInteger ⟨[], 0⟩ 10 false none (some 5) = .ok ⟨[1, 10], 0⟩ := by decide
  refine ⟨h, ?_⟩
  rintro ⟨e, pd, he⟩
  rw [h] at he
  cases he

/-- C9: `appendEnumerated` encodes `value`, not `value - lb`, in the range `ub - lb + 1`:
with bounds 1 and 4 the in-range value 4 is rejected (`putBitsValue(4, 2)`), and the value 3
is written as the bits `11` where `value - lb = 2` would be `10`. -/
theorem appendEnumerated_ignores_lower_bound :
    appendEnumerated ⟨[], 0⟩ 4 false (some 1) (some 4) = .error .bitsOverCapacity ⟨[], 0⟩ ∧
    appendEnumerated ⟨[], 0⟩ 3 false (some 1) (some 4) = .ok ⟨[0xC0], 2⟩ := by
  decide

/-- C10: a BIT STRING of 4 bits under the fixed size 8 (`lb = ub = 8`, not extensible) is
encoded without error: the error set for `bitsLength != ub` is overwritten by the result of
`putBitString`, and the 4 bits are written. -/
theorem appendBitString_fixed_size_accepts_short :
    appendBitString ⟨[], 0⟩ [0xF0] 4 false (some 8) (some 8) = .ok ⟨[0xF0], 4⟩ := by
  decide

/-! ## The bit writer: success and overflow -/

theorem putBitString_not_error (pd : perRawBitData) (bytes : List Nat) (numBits : Nat)
    (hn : numBits < 2 ^ 63) (hlen : bytes.length = (numBits + 7) / 8) :
    ¬ (putBitString pd bytes numBits).isError := by
  rintro ⟨e, pd', he⟩
  unfold putBitString at he
  have hm : (numBits + 7) % 2 ^ 64 / 8 = (numBits + 7) / 8 := by
    rw [Nat.mod_eq_of_lt (by omega)]
  simp only [hm] at he
  rw [if_neg (by omega)] at he
  have htake : bytes.take ((numBits + 7) / 8) = bytes := List.take_of_length_le (by omega)
  simp only [htake] at he
  split at he
  · cases he
  · split at he
    · split at he <;> cases he
    · have hsome : GetBitString (0 :: bytes) (subU64 8 pd.bitsOffset)
          (addU64 pd.bitsOffset numBits) ≠ none := by
        unfold GetBitString
        rename_i h1 h2
        rw [if_neg]
        · simp
        · simp only [List.length_cons]
          unfold subU64 addU64 at *
          omega
      split at he
      · rename_i h; exact hsome h
      · split at he <;> cases he

theorem putBitsValue_isError_iff (pd : perRawBitData) (value numBits : Nat)
    (h1 : 1 ≤ numBits) (h64 : numBits ≤ 64) :
    ((putBitsValue pd value numBits).isError ↔ 2 ^ numBits ≤ value) ∧
    ∀ e pd', putBitsValue pd value numBits = .error e pd' → pd' = pd := by
  rw [putBitsValue_eq pd value numBits (by omega) (by omega)]
  by_cases hv : value < 2 ^ numBits
  · rw [if_pos hv]
    have hne := putBitString_not_error pd
      (beBytes ((numBits + 7) / 8) (value * 2 ^ (8 * ((numBits + 7) / 8) - numBits))) numBits
      (by omega) (beBytes_length _ _)
    refine ⟨⟨fun h => absurd h hne, fun h => absurd hv (not_lt.mpr h)⟩, ?_⟩
    intro e pd' he
    exact absurd ⟨e, pd', he⟩ hne
  · rw [if_neg hv]
    refine ⟨⟨fun _ => not_lt.mp hv, fun _ => ⟨_, _, rfl⟩⟩, ?_⟩
    intro e pd' he
    cases he
    rfl

/-- C19: on a writer satisfying the invariant, for `1 ≤ n ≤ 64` and `v < 2 ^ n`,
`putBitsValue(v, n)` succeeds; the new `bitsOffset` is `(old bitsOffset + n) mod 8`; the bit
stream of the writer afterwards is the old bit stream followed by the `n` bits of `v`, most
significant bit first (so exactly `n` bits are added); and the invariant holds again, that
is, the unused low bits of the new last octet are zero. -/
theorem putBitsValue_appends_bits (pd : perRawBitData) (value numBits : Nat)
    (hwf : pd.WF) (h1 : 1 ≤ numBits) (h64 : numBits ≤ 64) (hv : value < 2 ^ numBits) :
    ∃ pd', putBitsValue pd value numBits = .ok pd' ∧
      pd'.bitsOffset = (pd.bitsOffset + numBits) % 8 ∧
      pd'.bits = pd.bits ++ natBits numBits value ∧
      pd'.bitLen = pd.bitLen + numBits ∧ pd'.WF := by
  obtain ⟨pd', hput, hholds, hoff⟩ := putBitsValue_holds pd pd.bits value numBits
    (wf_holds pd hwf) (by omega) (by omega) hv
  refine ⟨pd', hput, hoff, holds_bits _ _ hholds, ?_, holds_wf _ _ hholds⟩
  rw [← holds_length _ _ hholds, ← holds_length _ _ (wf_holds pd hwf)]
  simp [natBits_length]

theorem putBitsValue_appends_bits_witness :
    perRawBitData.WF ⟨[], 0⟩ ∧ 1 ≤ 3 ∧ 3 ≤ 64 ∧ 5 < 2 ^ 3 ∧
    ∃ pd', putBitsValue ⟨[], 0⟩ 5 3 = .ok pd' ∧
      pd'.bitsOffset = (0 + 3) % 8 ∧
      pd'.bits = perRawBitData.bits ⟨[], 0⟩ ++ natBits 3 5 ∧
      pd'.bitLen = perRawBitData.bitLen ⟨[], 0⟩ + 3 ∧ pd'.WF :=
  ⟨wf_empty, by decide, by decide, by decide,
    putBitsValue_appends_bits ⟨[], 0⟩ 5 3 wf_empty (by decide) (by decide) (by decide)⟩

/-- C20: for `1 ≤ n ≤ 64`, `putBitsValue(v, n)` returns an error if and only if
`v ≥ 2 ^ n`, whatever the writer state; and the writer that comes with that error is the
writer before the call, `bytes` and `bitsOffset` unchanged. -/
theorem putBitsValue_error_iff (pd : perRawBitData) (value numBits : Nat)
    (h1 : 1 ≤ numBits) (h64 : numBits ≤ 64) :
    ((putBitsValue pd value numBits).isError ↔ 2 ^ numBits ≤ value) ∧
    ∀ e pd', putBitsValue pd value numBits = .error e pd' →
      pd'.bytes = pd.bytes ∧ pd'.bitsOffset = pd.bitsOffset := by
  obtain ⟨hiff, hsame⟩ := putBitsValue_isError_iff pd value numBits h1 h64
  refine ⟨hiff, ?_⟩
  intro e pd' he
  rw [hsame e pd' he]
  exact ⟨rfl, rfl⟩

theorem putBitsValue_error_iff_witness :
    1 ≤ 3 ∧ 3 ≤ 64 ∧
    ((putBitsValue ⟨[0x80], 1⟩ 9 3).isError ↔ 2 ^ 3 ≤ 9) ∧
    ∀ e pd', putBitsValue ⟨[0x80], 1⟩ 9 3 = .error e pd' →
      pd'.bytes = [0x80] ∧ pd'.bitsOffset = 1 :=
  ⟨by decide, by decide, putBitsValue_error_iff ⟨[0x80], 1⟩ 9 3 (by decide) (by decide)⟩

theorem logged_eq_andThen (o : Outcome) (f : perRawBitData → Outcome) (h : ¬ o.isError) :
    o.logged f = o.andThen f := by
  cases o with
  | ok pd => rfl
  | error e pd => exact absurd ⟨e, pd, rfl⟩ h
  | panic => rfl
  | diverge => rfl

theorem putBitsValue_bit_not_error (pd : perRawBitData) (e : Nat) (he : e < 2) :
    ¬ (putBitsValue pd e 1).isError := by
  intro h
  have := ((putBitsValue_isError_iff pd e 1 (by decide) (by decide)).1).mp h
  omega

theorem putBitsValue_over (pd : perRawBitData) (value numBits : Nat) (h0 : 0 < numBits)
    (hn : numBits < 2 ^ 63) (hv : 2 ^ numBits ≤ value) :
    putBitsValue pd value numBits = .error .bitsOverCapacity pd := by
  rw [putBitsValue_eq pd value numBits h0 hn, if_neg (by omega)]

theorem andThen_isError (o : Outcome) (f : perRawBitData → Outcome) (h : o.isError) :
    (o.andThen f).isError := by
  obtain ⟨e, pd, rfl⟩ := h
  exact ⟨e, pd, rfl⟩

/-! ## Extensible INTEGER -/

theorem integerBody_extension (pd : perRawBitData) (value lb : Int) :
    integerBody pd value lb (-1) = integerBody pd value 0 (-1) := by
  unfold integerBody
  simp only [show ¬ ((-1 : Int) = 1) by decide, if_false, show (-1 : Int) ≤ 0 by decide, if_true]
  unfold integerLong
  simp only [show (-1 : Int) ≤ 0 by decide, if_true, show (-1 : Int) < 0 by decide]

theorem appendInteger_plain_both (pd : perRawBitData) (value lb ub : Int)
    (hv : lb ≤ value) (hub : value ≤ ub) :
    appendInteger pd value false (some lb) (some ub)
      = integerBody pd value lb (toInt64 (ub - lb + 1)) := by
  unfold appendInteger
  simp [not_lt.mpr hv, hub]

theorem appendInteger_ext_inside (pd : perRawBitData) (value lb ub : Int)
    (hv : lb ≤ value) (hub : value ≤ ub) (hr : toInt64 (ub - lb + 1) ≠ 0) :
    appendInteger pd value true (some lb) (some ub)
      = (putBitsValue pd 0 1).logged fun pd => integerBody pd value lb (toInt64 (ub - lb + 1)) := by
  unfold appendInteger
  simp [not_lt.mpr hv, hub, hr]

theorem appendInteger_ext_above (pd : perRawBitData) (value lb ub : Int)
    (hv : lb ≤ value) (hub : ¬ value ≤ ub) :
    appendInteger pd value true (some lb) (some ub)
      = (putBitsValue pd 1 1).logged fun pd => integerBody pd value lb (-1) := by
  unfold appendInteger
  simp [not_lt.mpr hv, hub]

/-- C17: for an INTEGER with both bounds given, `lb ≤ ub`, `ub - lb + 1 ≤ 2 ^ 63 - 1` and
`value ≥ lb`, `appendInteger` with the extensible flag set gives the same outcome, on every
writer, as one extension bit written with `putBitsValue` followed by `appendInteger` with
the flag cleared: bit 0 and the same bounds when `value ≤ ub`, bit 1 and no bounds when
`value > ub`. Value 5 with bounds 0 and 7 gives the bits `0101`, octet `0x50`. -/
theorem appendInteger_extensible_as_bit_then_plain (pd : perRawBitData) (value lb ub : Int)
    (hlu : lb ≤ ub) (hr : ub - lb + 1 ≤ 2 ^ 63 - 1) (hv : lb ≤ value) :
    appendInteger pd value true (some lb) (some ub) =
      (if value ≤ ub then
        (putBitsValue pd 0 1).andThen fun pd => appendInteger pd value false (some lb) (some ub)
      else
        (putBitsValue pd 1 1).andThen fun pd => appendInteger pd value false none none) ∧
    appendInteger ⟨[], 0⟩ 5 true (some 0) (some 7) = .ok ⟨[0x50], 4⟩ := by
  refine ⟨?_, by decide⟩
  have hrange : toInt64 (ub - lb + 1) ≠ 0 := by unfold toInt64; omega
  by_cases hub : value ≤ ub
  · rw [if_pos hub, appendInteger_ext_inside pd value lb ub hv hub hrange,
      logged_eq_andThen _ _ (putBitsValue_bit_not_error pd 0 (by decide))]
    congr 1
    funext pd1
    rw [appendInteger_plain_both pd1 value lb ub hv hub]
  · rw [if_neg hub, appendInteger_ext_above pd value lb ub hv hub,
      logged_eq_andThen _ _ (putBitsValue_bit_not_error pd 1 (by decide))]
    have hfun : (fun pd1 => integerBody pd1 value lb (-1))
        = fun pd1 => appendInteger pd1 value false none none := by
      funext pd1
      exact integerBody_extension pd1 value lb
    rw [hfun]

theorem appendInteger_extensible_as_bit_then_plain_witness :
    (0 : Int) ≤ 7 ∧ (7 : Int) - 0 + 1 ≤ 2 ^ 63 - 1 ∧ (0 : Int) ≤ 9 ∧
    appendInteger ⟨[0x80], 1⟩ 9 true (some 0) (some 7) =
      (if (9 : Int) ≤ 7 then
        (putBitsValue ⟨[0x80], 1⟩ 0 1).andThen fun pd => appendInteger pd 9 false (some 0) (some 7)
      else
        (putBitsValue ⟨[0x80], 1⟩ 1 1).andThen fun pd => appendInteger pd 9 false none none) ∧
    appendInteger ⟨[], 0⟩ 5 true (some 0) (some 7) = .ok ⟨[0x50], 4⟩ :=
  ⟨by decide, by decide, by decide,
    appendInteger_extensible_as_bit_then_plain ⟨[0x80], 1⟩ 9 0 7 (by decide) (by decide)
      (by decide)⟩

/-! ## OPEN TYPE -/

theorem putBitsValue_aligned_ok (bs : List Nat) (value n : Nat) (h0 : 0 < n) (hn : n < 2 ^ 63)
    (pd' : perRawBitData) (h : putBitsValue ⟨bs, 0⟩ value n = .ok pd') :
    pd'.bitsOffset = n % 8 := by
  rw [putBitsValue_eq _ _ _ h0 hn] at h
  split at h
  · rw [putBitString_aligned _ _ _ hn (beBytes_length _ _)] at h
    cases h
    rfl
  · cases h

theorem appendLength_unconstrained_aligned (pd pd' : perRawBitData) (value : Nat)
    (h : appendLength pd (-1) value = .ok pd') : pd'.bitsOffset = 0 := by
  unfold appendLength at h
  rw [if_neg (by decide)] at h
  simp only [appendAlignBits] at h
  split at h
  · exact putBitsValue_aligned_ok _ _ 8 (by decide) (by decide) pd' h
  · split at h
    · exact putBitsValue_aligned_ok _ _ 16 (by decide) (by decide) pd' h
    · exact putBitsValue_aligned_ok _ _ 8 (by decide) (by decide) pd' h

theorem appendLength_two (pd : perRawBitData) (value : Nat) (h1 : 128 ≤ value)
    (h2 : value ≤ 16383) :
    appendLength pd (-1) value = .ok ⟨pd.bytes ++ [128 + value / 256, value % 256], 0⟩ := by
  unfold appendLength
  rw [if_neg (by decide)]
  simp only [appendAlignBits]
  rw [if_neg (by omega), if_pos h2]
  have hor : value ||| 0x8000 = 32768 + value := by
    have h := Nat.mul_add_lt_is_or (show value < 2 ^ 15 by omega) 1
    rw [Nat.or_comm]
    simpa using h.symm
  rw [hor]
  have h := putBitsValue_octets pd.bytes 2 (32768 + value) (by decide) (by decide) (by omega)
  have hb : beBytes 2 (32768 + value) = [128 + value / 256, value % 256] := by
    simp only [beBytes, List.nil_append, List.singleton_append]
    congr 1
    · omega
    · congr 1; omega
  rw [hb] at h
  exact h

theorem appendLength_determinant (pd : perRawBitData) (L : Nat) (h : L ≤ 16383) :
    appendLength pd (-1) L = .ok ⟨pd.bytes ++ lengthDeterminant L, 0⟩ := by
  unfold lengthDeterminant
  by_cases h127 : L ≤ 127
  · rw [if_pos h127]; exact appendLength_short pd L h127
  · rw [if_neg h127]; exact appendLength_two pd L (by omega) h

theorem openTypeLoop_aligned (fuel : Nat) (pd : perRawBitData) (bytes : List Nat)
    (rawLength byteOffset : Nat) (pd' : perRawBitData)
    (h : openTypeLoop fuel pd bytes rawLength byteOffset = .ok pd') : pd'.bitsOffset = 0 := by
  induction fuel generalizing pd rawLength byteOffset with
  | zero => simp [openTypeLoop] at h
  | succ fuel ih =>
    rw [openTypeLoop] at h
    simp only at h
    cases hlen : appendLength pd (-1) (fragmentPart rawLength) with
    | ok pd1 =>
      rw [hlen] at h
      simp only [Outcome.andThen] at h
      split at h
      · cases h
        exact appendLength_unconstrained_aligned pd _ _ hlen
      · split at h
        · cases h
        · split at h
          · exact ih _ _ _ h
          · cases h
            rfl
    | error e pd1 => rw [hlen] at h; simp [Outcome.andThen] at h
    | panic => rw [hlen] at h; simp [Outcome.andThen] at h
    | diverge => rw [hlen] at h; simp [Outcome.andThen] at h

theorem openTypeEmit_short (pd inner : perRawBitData) (h : inner.bytes.length ≤ 16383) :
    openTypeEmit pd (.ok inner)
      = .ok ⟨pd.bytes ++ lengthDeterminant inner.bytes.length ++ inner.bytes, 0⟩ := by
  unfold openTypeEmit
  simp only
  rw [openTypeLoop]
  have hp : fragmentPart inner.bytes.length = inner.bytes.length := by
    unfold fragmentPart
    rw [if_neg (by omega), if_neg (by omega)]
  simp only [hp]
  rw [appendLength_determinant pd _ h]
  simp only [Outcome.andThen, appendAlignBits]
  by_cases h0 : inner.bytes.length = 0
  · rw [if_pos h0]
    have : inner.bytes = [] := List.length_eq_zero.mp h0
    rw [this]
    simp
  · rw [if_neg h0]
    have e3 : addU64 0 inner.bytes.length = inner.bytes.length := by
      unfold addU64; omega
    have e4 : subU64 inner.bytes.length inner.bytes.length = 0 := by
      unfold subU64; omega
    have hs : goSlice inner.bytes 0 inner.bytes.length = some inner.bytes := by
      unfold goSlice
      rw [if_neg (by omega)]
      simp
    simp only [e3, e4, hs]
    rw [if_neg (by decide)]

/-- C16: for every value, parameters and outer writer, when `appendOpenType` succeeds the
outer writer ends octet-aligned (`bitsOffset = 0`); and when encoding the value into a fresh
empty writer gives `L ≤ 16383` octets, `appendOpenType` succeeds and the outer writer holds
its previous octets, then the unconstrained length determinant of `L` (one octet for
`L ≤ 127`, two otherwise), then exactly the `L` inner octets, whatever the previous bit
offset of the outer writer was. -/
theorem appendOpenType_aligned (pd : perRawBitData) (v : Value) (params : fieldParameters) :
    (∀ pd', appendOpenType pd v params = .ok pd' → pd'.bitsOffset = 0) ∧
    (∀ inner, makeField ⟨[], 0⟩ v params = .ok inner → inner.bytes.length ≤ 16383 →
      appendOpenType pd v params
        = .ok ⟨pd.bytes ++ lengthDeterminant inner.bytes.length ++ inner.bytes, 0⟩) := by
  constructor
  · intro pd' h
    unfold appendOpenType openTypeEmit at h
    split at h
    · exact openTypeLoop_aligned _ _ _ _ _ _ h
    · cases h
    · cases h
    · cases h
  · intro inner hin hl
    unfold appendOpenType
    rw [hin]
    exact openTypeEmit_short pd inner hl

theorem appendOpenType_aligned_witness :
    (∀ pd', appendOpenType ⟨[0x80], 1⟩ (.bool true)
        ⟨false, false, false, none, none, none, none, false, "", none⟩ = .ok pd' →
      pd'.bitsOffset = 0) ∧
    makeField ⟨[], 0⟩ (.bool true)
        ⟨false, false, false, none, none, none, none, false, "", none⟩ = .ok ⟨[0x80], 1⟩ ∧
    [0x80].length ≤ 16383 ∧
    appendOpenType ⟨[0x80], 1⟩ (.bool true)
        ⟨false, false, false, none, none, none, none, false, "", none⟩
      = .ok ⟨[0x80] ++ lengthDeterminant [0x80].length ++ [0x80], 0⟩ :=
  ⟨(appendOpenType_aligned ⟨[0x80], 1⟩ (.bool true)
      ⟨false, false, false, none, none, none, none, false, "", none⟩).1,
    by decide, by decide,
    (appendOpenType_aligned ⟨[0x80], 1⟩ (.bool true)
      ⟨false, false, false, none, none, none, none, false, "", none⟩).2 ⟨[0x80], 1⟩
      (by decide) (by decide)⟩

/-! ## OCTET STRING: size violations and the fixed size -/

theorem appendConstraintValue_65536 (pd : perRawBitData) (sizeRange : Int)
    (h1 : 0 < sizeRange) (h2 : sizeRange ≤ 65536) :
    (appendConstraintValue pd sizeRange 65536).isError := by
  unfold appendConstraintValue
  by_cases h255 : sizeRange ≤ 255
  · rw [if_pos h255, if_neg (by omega)]
    obtain ⟨w1, w8, _, _⟩ := widthLoop_small sizeRange h255
    have hpow : 2 ^ widthLoop 8 1 sizeRange ≤ 65536 := by
      calc 2 ^ widthLoop 8 1 sizeRange ≤ 2 ^ 8 := Nat.pow_le_pow_right (by decide) w8
        _ ≤ 65536 := by decide
    rw [putBitsValue_over pd 65536 _ (by omega) (by omega) hpow]
    exact ⟨_, _, rfl⟩
  · rw [if_neg h255]
    by_cases h256 : sizeRange = 256
    · rw [if_pos h256, putBitsValue_over _ 65536 (1 * 8) (by decide) (by decide) (by decide)]
      exact ⟨_, _, rfl⟩
    · rw [if_neg h256, if_pos h2,
        putBitsValue_over _ 65536 (2 * 8) (by decide) (by decide) (by decide)]
      exact ⟨_, _, rfl⟩

theorem appendOctetString_plain_both (pd : perRawBitData) (bytes : List Nat) (lb ub : Int)
    (h : bytes.length ≤ toUint64 ub) :
    appendOctetString pd bytes false (some lb) (some ub)
      = octetStringBody pd bytes lb ub (toInt64 (ub - lb + 1)) := by
  unfold appendOctetString
  simp [h]

theorem appendOctetString_plain_over (pd : perRawBitData) (bytes : List Nat) (lb ub : Int)
    (h : ¬ bytes.length ≤ toUint64 ub) :
    appendOctetString pd bytes false (some lb) (some ub) = .error .octetStringOverUpper pd := by
  unfold appendOctetString
  simp [h]

/-- C11, as the code has it: for a non-extensible size constraint of an OCTET STRING with
both bounds given and `0 ≤ ub`, `appendOctetString` returns an error whenever
`len(bytes) > ub`, and whenever `len(bytes) < lb` with `lb ≤ ub ≤ 65535`. An upper bound
without a lower bound is not consulted: the outcome is that of the unconstrained encoding. -/
theorem appendOctetString_size_errors (pd : perRawBitData) (bytes : List Nat) (lb ub : Int)
    (hub0 : 0 ≤ ub) (hub63 : ub < 2 ^ 63)
    (h : ub < bytes.length ∨ ((bytes.length : Int) < lb ∧ lb ≤ ub ∧ ub ≤ 65535)) :
    (appendOctetString pd bytes false (some lb) (some ub)).isError ∧
    ∀ ub', appendOctetString pd bytes false none (some ub')
      = appendOctetString pd bytes false none none := by
  refine ⟨?_, fun _ => rfl⟩
  have hu : toUint64 ub = ub.toNat := by unfold toUint64; omega
  by_cases hover : bytes.length ≤ toUint64 ub
  · rcases h with h | ⟨hlt, hlu, h65⟩
    · omega
    · have hr : toInt64 (ub - lb + 1) = ub - lb + 1 := by unfold toInt64; omega
      rw [appendOctetString_plain_both pd bytes lb ub hover, hr]
      unfold octetStringBody
      simp only [hu, if_neg (show ¬ ub > 65535 by omega)]
      by_cases hone : ub - lb + 1 = 1
      · rw [if_pos hone, if_pos (by omega)]
        exact ⟨_, _, rfl⟩
      · rw [if_neg hone]
        have hl : toUint64 lb = lb.toNat := by unfold toUint64; omega
        obtain ⟨r, hrdef⟩ : ∃ r, subU64 bytes.length (toUint64 lb) = r := ⟨_, rfl⟩
        have hrbig : 65536 < r := by
          rw [← hrdef, hl]; unfold subU64; omega
        rw [hrdef, octetStringLoop]
        have hp : fragmentPart r = 65536 := by
          unfold fragmentPart; rw [if_pos hrbig]
        simp only [hp]
        apply andThen_isError
        unfold appendLength
        rw [if_pos ⟨by omega, by omega⟩]
        exact appendConstraintValue_65536 pd _ (by omega) (by omega)
  · rw [appendOctetString_plain_over pd bytes lb ub hover]
    exact ⟨_, _, rfl⟩

theorem appendOctetString_size_errors_witness :
    (0 : Int) ≤ 2 ∧ (2 : Int) < 2 ^ 63 ∧
    ((2 : Int) < ([1, 2, 3] : List Nat).length ∨
      ((([1, 2, 3] : List Nat).length : Int) < 0 ∧ (0 : Int) ≤ 2 ∧ (2 : Int) ≤ 65535)) ∧
    (appendOctetString ⟨[], 0⟩ [1, 2, 3] false (some 0) (some 2)).isError ∧
    ∀ ub', appendOctetString ⟨[], 0⟩ [1, 2, 3] false none (some ub')
      = appendOctetString ⟨[], 0⟩ [1, 2, 3] false none none :=
  ⟨by decide, by decide, Or.inl (by decide),
    appendOctetString_size_errors ⟨[], 0⟩ [1, 2, 3] 0 2 (by decide) (by decide)
      (Or.inl (by decide))⟩

/-- C11 fails as stated: with the upper bound 2 given, no lower bound and a non-extensible
constraint, the three octets `01 02 03` are encoded (length octet 3, then the octets) and no
error is returned. -/
theorem appendOctetString_upper_bound_alone_not_checked :
    appendOctetString ⟨[], 0⟩ [1, 2, 3] false none (some 2) = .ok ⟨[3, 1, 2, 3], 0⟩ ∧
    ¬ (appendOctetString ⟨[], 0⟩ [1, 2, 3] false none (some 2)).isError := by
  have h : appendOctetString ⟨[], 0⟩ [1, 2, 3] false none (some 2) = .ok ⟨[3, 1, 2, 3], 0⟩ := by
    decide
  refine ⟨h, ?_⟩
  rintro ⟨e, pd, he⟩
  rw [h] at he
  cases he

theorem putBitString_octets_holds (pd : perRawBitData) (bytes : List Nat) (hwf : pd.WF)
    (hb : ∀ b ∈ bytes, b < 256) (h0 : 0 < bytes.length) (hl : bytes.length < 2 ^ 59) :
    ∃ pd', putBitString pd bytes (bytes.length * 8 % 2 ^ 64) = .ok pd' ∧
      pd'.bits = pd.bits ++ bytesBits bytes ∧ pd'.bitsOffset = pd.bitsOffset ∧ pd'.WF := by
  have hm : bytes.length * 8 % 2 ^ 64 = bytes.length * 8 := Nat.mod_eq_of_lt (by omega)
  rw [hm]
  obtain ⟨pd', hput, hholds, hoff⟩ := putBitString_holds pd pd.bits (bytesBits bytes) bytes
    (bytes.length * 8) (wf_holds pd hwf) (by omega) (by rw [bytesBits_length]; omega)
    (by omega) hb (by simp [show 8 * bytes.length - bytes.length * 8 = 0 by omega])
    (Or.inl (by omega))
  refine ⟨pd', hput, holds_bits _ _ hholds, ?_, holds_wf _ _ hholds⟩
  rw [hoff]
  have := hwf.1
  omega

/-- C12, as the code has it: for a non-extensible fixed size `lb = ub` with
`1 ≤ ub ≤ 65535`, a writer satisfying the invariant and an octet string: if
`len(bytes) ≠ ub` the call returns an error and the writer is unchanged; if
`len(bytes) = ub > 2` the result is the old octets followed by the octets verbatim with
`bitsOffset = 0`; if `len(bytes) = ub ≤ 2` the `8 * len` bits are appended to the bit stream
at the current offset, `bitsOffset` is unchanged and the invariant kept. `DE AD BE EF` with
`lb = ub = 4` on the empty writer gives `DE AD BE EF`. -/
theorem appendOctetString_fixed_size (pd : perRawBitData) (bytes : List Nat) (ub : Int)
    (hwf : pd.WF) (hb : ∀ b ∈ bytes, b < 256) (h1 : 1 ≤ ub) (h2 : ub ≤ 65535) :
    ((bytes.length : Int) ≠ ub →
      ∃ e, appendOctetString pd bytes false (some ub) (some ub) = .error e pd) ∧
    ((bytes.length : Int) = ub → 2 < bytes.length →
      appendOctetString pd bytes false (some ub) (some ub) = .ok ⟨pd.bytes ++ bytes, 0⟩) ∧
    ((bytes.length : Int) = ub → bytes.length ≤ 2 →
      ∃ pd', appendOctetString pd bytes false (some ub) (some ub) = .ok pd' ∧
        pd'.bits = pd.bits ++ bytesBits bytes ∧ pd'.bitsOffset = pd.bitsOffset ∧ pd'.WF) ∧
    appendOctetString ⟨[], 0⟩ [0xDE, 0xAD, 0xBE, 0xEF] false (some 4) (some 4)
      = .ok ⟨[0xDE, 0xAD, 0xBE, 0xEF], 0⟩ := by
  have hu : toUint64 ub = ub.toNat := by unfold toUint64; omega
  have hr : toInt64 (ub - ub + 1) = 1 := by unfold toInt64; omega
  have hbody : bytes.length ≤ toUint64 ub →
      appendOctetString pd bytes false (some ub) (some ub)
        = if bytes.length ≠ ub.toNat then .error .octetStringNotFixed pd
          else if bytes.length > 2 then .ok ⟨pd.bytes ++ bytes, 0⟩
          else putBitString pd bytes (bytes.length * 8 % 2 ^ 64) := by
    intro hle
    rw [appendOctetString_plain_both pd bytes ub ub hle, hr]
    unfold octetStringBody
    simp only [hu, if_neg (show ¬ ub > 65535 by omega), if_true, appendAlignBits]
  refine ⟨?_, ?_, ?_, by decide⟩
  · intro hne
    by_cases hover : bytes.length ≤ toUint64 ub
    · rw [hbody hover, if_pos (by omega)]
      exact ⟨_, rfl⟩
    · rw [appendOctetString_plain_over pd bytes ub ub hover]
      exact ⟨_, rfl⟩
  · intro heq h3
    rw [hbody (by omega), if_neg (by omega), if_pos h3]
  · intro heq h3
    rw [hbody (by omega), if_neg (by omega), if_neg (by omega)]
    exact putBitString_octets_holds pd bytes hwf hb (by omega) (by omega)

theorem appendOctetString_fixed_size_witness :
    perRawBitData.WF ⟨[], 0⟩ ∧ (∀ b ∈ [0xDE, 0xAD, 0xBE, 0xEF], b < 256) ∧
    (1 : Int) ≤ 4 ∧ (4 : Int) ≤ 65535 ∧
    ((([0xDE, 0xAD, 0xBE, 0xEF] : List Nat).length : Int) ≠ 4 →
      ∃ e, appendOctetString ⟨[], 0⟩ [0xDE, 0xAD, 0xBE, 0xEF] false (some 4) (some 4)
        = .error e ⟨[], 0⟩) ∧
    ((([0xDE, 0xAD, 0xBE, 0xEF] : List Nat).length : Int) = 4 →
      2 < ([0xDE, 0xAD, 0xBE, 0xEF] : List Nat).length →
      appendOctetString ⟨[], 0⟩ [0xDE, 0xAD, 0xBE, 0xEF] false (some 4) (some 4)
        = .ok ⟨[] ++ [0xDE, 0xAD, 0xBE, 0xEF], 0⟩) ∧
    ((([0xDE, 0xAD, 0xBE, 0xEF] : List Nat).length : Int) = 4 →
      ([0xDE, 0xAD, 0xBE, 0xEF] : List Nat).length ≤ 2 →
      ∃ pd', appendOctetString ⟨[], 0⟩ [0xDE, 0xAD, 0xBE, 0xEF] false (some 4) (some 4)
          = .ok pd' ∧
        pd'.bits = perRawBitData.bits ⟨[], 0⟩ ++ bytesBits [0xDE, 0xAD, 0xBE, 0xEF] ∧
        pd'.bitsOffset = 0 ∧ pd'.WF) ∧
    appendOctetString ⟨[], 0⟩ [0xDE, 0xAD, 0xBE, 0xEF] false (some 4) (some 4)
      = .ok ⟨[0xDE, 0xAD, 0xBE, 0xEF], 0⟩ :=
  ⟨wf_empty, by decide, by decide, by decide,
    appendOctetString_fixed_size ⟨[], 0⟩ [0xDE, 0xAD, 0xBE, 0xEF] 4 wf_empty (by decide)
      (by decide) (by decide)⟩

theorem appendOctetString_fixed_len65536 (pd : perRawBitData) (bytes : List Nat)
    (h : bytes.length = 65536) :
    appendOctetString pd bytes false (some 65536) (some 65536)
      = .ok ⟨pd.bytes ++ 0 :: bytes, 0⟩ := by
  rw [appendOctetString_plain_both pd bytes 65536 65536 (by rw [h]; decide)]
  unfold octetStringBody
  simp only [h]
  rw [if_neg (by decide)]
  have e : subU64 65536 (toUint64 65536) = 0 := by decide
  rw [e, octetStringLoop]
  have hp : fragmentPart 0 = 0 := by decide
  have hsr : (if (65536 : Int) > 65535 then (-1 : Int) else toInt64 (65536 - 65536 + 1)) = -1 := by
    decide
  simp only [hp, hsr]
  rw [appendLength_short pd 0 (by decide)]
  simp only [Outcome.andThen, appendAlignBits]
  have e2 : addU64 0 (toUint64 65536) = 65536 := by decide
  have e3 : addU64 0 65536 = 65536 := by decide
  have e4 : subU64 0 (subU64 65536 (toUint64 65536)) = 0 := by decide
  have hs : goSlice bytes 0 65536 = some bytes := by
    unfold goSlice
    rw [if_neg (by omega)]
    simp [← h]
  simp only [e2, e3, e4, hs]
  rw [if_neg (by decide), if_neg (by decide)]
  simp

/-- C12 fails as stated for a fixed size above 65535: with `lb = ub = 65536` the size range
is reset to -1, so 65536 octets are encoded with a leading length octet `00` (not verbatim),
and the one-octet string `01`, whose length is not `ub`, is not rejected with an error: the
call panics at the slice `bytes[0:131072]`. -/
theorem appendOctetString_fixed_large_not_verbatim :
    appendOctetString ⟨[], 0⟩ (List.replicate 65536 0) false (some 65536) (some 65536)
      = .ok ⟨0 :: List.replicate 65536 0, 0⟩ ∧
    appendOctetString ⟨[], 0⟩ [1] false (some 65536) (some 65536) = .panic :=
  ⟨appendOctetString_fixed_len65536 ⟨[], 0⟩ _ (List.length_replicate _ _), by decide⟩

/-! ## SEQUENCE OF -/

theorem appendConstraintValue_not_error (pd : perRawBitData) (valueRange : Int) (value : Nat)
    (h1 : 1 ≤ valueRange) (h2 : valueRange ≤ 65536) (hv : (value : Int) < valueRange) :
    ¬ (appendConstraintValue pd valueRange value).isError := by
  unfold appendConstraintValue
  by_cases h255 : valueRange ≤ 255
  · rw [if_pos h255, if_neg (by omega)]
    obtain ⟨w1, w8, wb, _⟩ := widthLoop_small valueRange h255
    have hvlt : value < 2 ^ widthLoop 8 1 valueRange := by
      have : (value : Int) < 2 ^ widthLoop 8 1 valueRange := lt_of_lt_of_le hv wb
      exact_mod_cast this
    intro herr
    have := ((putBitsValue_isError_iff pd value _ w1 (by omega)).1).mp herr
    omega
  · rw [if_neg h255]
    by_cases h256 : valueRange = 256
    · rw [if_pos h256]
      intro herr
      have := ((putBitsValue_isError_iff _ value (1 * 8) (by decide) (by decide)).1).mp herr
      norm_num at this
      omega
    · rw [if_neg h256, if_pos h2]
      intro herr
      have := ((putBitsValue_isError_iff _ value (2 * 8) (by decide) (by decide)).1).mp herr
      norm_num at this
      omega

theorem makeElems_fold (params : fieldParameters) : ∀ (elems : Values) (o : Outcome),
    o.andThen (fun pd => makeElems pd elems params)
      = elems.toList.foldl (fun o v => o.andThen fun pd => makeField pd v params) o
  | .nil, o => by
    simp only [Values.toList, List.foldl_nil]
    cases o <;> simp [Outcome.andThen, makeElems]
  | .cons v rest, o => by
    simp only [Values.toList, List.foldl_cons]
    rw [← makeElems_fold params rest]
    cases o <;> simp [Outcome.andThen, makeElems]

theorem makeElems_spec (pd : perRawBitData) (elems : Values) (params : fieldParameters) :
    makeElems pd elems params = specElements pd elems.toList params :=
  makeElems_fold params elems (.ok pd)

theorem sequenceOfHeader_plain (pd : perRawBitData) (n : Int) (params : fieldParameters)
    (ub : Int) (hne : params.sizeExtensible = false) (hub : params.sizeUpperBound = some ub)
    (hub65 : ub < 65536) (hlb : ∀ l, params.sizeLowerBound = some l → l < 65536) :
    sequenceOfHeader pd n params =
      if n > ub then .error .seqOfAboveUpper pd
      else sequenceOfLength pd n (params.sizeLowerBound.getD 0) ub
        (toInt64 (ub - params.sizeLowerBound.getD 0 + 1)) := by
  unfold sequenceOfHeader
  cases hl : params.sizeLowerBound with
  | none =>
    by_cases hgt : n > ub
    · simp [hub, hub65, hne, hgt, Outcome.andThen]
    · simp [hub, hub65, hne, hgt, Outcome.andThen]
  | some l =>
    have hl65 := hlb l hl
    by_cases hgt : n > ub
    · simp [hub, hub65, hne, hgt, hl65, Outcome.andThen]
    · simp [hub, hub65, hne, hgt, hl65, Outcome.andThen]

/-- C15, as the code has it: for a SEQUENCE OF with `n` elements under a non-extensible
size constraint with upper bound `ub < 65536` and lower bound `lb` (0 when absent) such that
`lb < 65536` and `ub - lb + 1 ≤ 65536`: the length header of `parseSequenceOf` returns an
error if and only if `n < lb` or `n > ub`; for `lb ≤ n ≤ ub` it emits nothing when
`lb = ub` and otherwise `n - lb` as a constrained whole number with range `ub - lb + 1`;
`parseSequenceOf` then encodes the elements in index order, each with the parameters whose
size bounds and size-extensible flag are cleared. -/
theorem parseSequenceOf_length_header (pd : perRawBitData) (elems : Values)
    (params : fieldParameters) (ub : Int)
    (hne : params.sizeExtensible = false) (hub : params.sizeUpperBound = some ub)
    (hub65 : ub < 65536) (hlb : ∀ l, params.sizeLowerBound = some l → l < 65536)
    (hrange : ub - params.sizeLowerBound.getD 0 + 1 ≤ 65536) :
    ((sequenceOfHeader pd elems.len params).isError ↔
      ((elems.len : Int) < params.sizeLowerBound.getD 0 ∨ ub < elems.len)) ∧
    (params.sizeLowerBound.getD 0 ≤ elems.len → (elems.len : Int) ≤ ub →
      sequenceOfHeader pd elems.len params =
        if params.sizeLowerBound.getD 0 = ub then .ok pd
        else appendConstraintValue pd (ub - params.sizeLowerBound.getD 0 + 1)
          ((elems.len : Int) - params.sizeLowerBound.getD 0).toNat) ∧
    parseSequenceOf pd elems params
      = (sequenceOfHeader pd elems.len params).andThen
          (fun pd => specElements pd elems.toList (clearSize params)) ∧
    (clearSize params).sizeLowerBound = none ∧ (clearSize params).sizeUpperBound = none ∧
    (clearSize params).sizeExtensible = false := by
  obtain ⟨lb, hlbdef⟩ : ∃ lb, params.sizeLowerBound.getD 0 = lb := ⟨_, rfl⟩
  obtain ⟨n, hndef⟩ : ∃ n : Nat, n = elems.len := ⟨_, rfl⟩
  rw [← hndef]
  rw [hlbdef] at hrange
  have hplain := sequenceOfHeader_plain pd n params ub hne hub hub65 hlb
  rw [hlbdef] at hplain
  have hin : lb ≤ n → (n : Int) ≤ ub →
      sequenceOfHeader pd n params =
        if lb = ub then .ok pd
        else appendConstraintValue pd (ub - lb + 1) ((n : Int) - lb).toNat := by
    intro h1 h2
    have hr : toInt64 (ub - lb + 1) = ub - lb + 1 := by unfold toInt64; omega
    have hv : toUint64 (toInt64 ((n : Int) - lb)) = ((n : Int) - lb).toNat := by
      unfold toUint64 toInt64; omega
    rw [hplain, if_neg (by omega), hr]
    unfold sequenceOfLength
    rw [if_neg (by omega)]
    by_cases heq : lb = ub
    · rw [if_pos (by omega), if_neg (by simp; omega), if_pos heq]
    · rw [if_neg (by omega), if_pos (by omega), if_neg heq, hv]
  refine ⟨?_, ?_, ?_, rfl, rfl, rfl⟩
  · rw [hlbdef]
    constructor
    · intro herr
      by_contra hc
      have h1 : lb ≤ n := by omega
      have h2 : (n : Int) ≤ ub := by omega
      rw [hin h1 h2] at herr
      by_cases heq : lb = ub
      · rw [if_pos heq] at herr
        obtain ⟨e, pd', he⟩ := herr
        cases he
      · rw [if_neg heq] at herr
        exact appendConstraintValue_not_error pd (ub - lb + 1) ((n : Int) - lb).toNat
          (by omega) hrange (by omega) herr
    · intro hcase
      rw [hplain]
      by_cases hgt : (n : Int) > ub
      · rw [if_pos hgt]; exact ⟨_, _, rfl⟩
      · rw [if_neg hgt]
        unfold sequenceOfLength
        rw [if_pos (by omega)]
        exact ⟨_, _, rfl⟩
  · rw [hlbdef]; exact hin
  · rw [parseSequenceOf, ← hndef]
    congr 1
    funext pd1
    exact makeElems_spec pd1 elems (clearSize params)

theorem parseSequenceOf_length_header_witness :
    (false = false) ∧ (some (3 : Int) = some 3) ∧ (3 : Int) < 65536 ∧
    (∀ l, some (1 : Int) = some l → l < 65536) ∧
    (3 : Int) - (some (1 : Int)).getD 0 + 1 ≤ 65536 ∧
    ((sequenceOfHeader ⟨[], 0⟩ (Values.cons (.bool true) (.cons (.bool false) .nil)).len
        ⟨false, false, false, some 1, some 3, none, none, false, "", none⟩).isError ↔
      (((Values.cons (.bool true) (.cons (.bool false) .nil)).len : Int)
          < (some (1 : Int)).getD 0 ∨
        (3 : Int) < (Values.cons (.bool true) (.cons (.bool false) .nil)).len)) ∧
    ((some (1 : Int)).getD 0 ≤ (Values.cons (.bool true) (.cons (.bool false) .nil)).len →
      ((Values.cons (.bool true) (.cons (.bool false) .nil)).len : Int) ≤ 3 →
      sequenceOfHeader ⟨[], 0⟩ (Values.cons (.bool true) (.cons (.bool false) .nil)).len
          ⟨false, false, false, some 1, some 3, none, none, false, "", none⟩ =
        if (some (1 : Int)).getD 0 = 3 then .ok ⟨[], 0⟩
        else appendConstraintValue ⟨[], 0⟩ (3 - (some (1 : Int)).getD 0 + 1)
          (((Values.cons (.bool true) (.cons (.bool false) .nil)).len : Int)
            - (some (1 : Int)).getD 0).toNat) ∧
    parseSequenceOf ⟨[], 0⟩ (Values.cons (.bool true) (.cons (.bool false) .nil))
        ⟨false, false, false, some 1, some 3, none, none, false, "", none⟩
      = (sequenceOfHeader ⟨[], 0⟩ (Values.cons (.bool true) (.cons (.bool false) .nil)).len
          ⟨false, false, false, some 1, some 3, none, none, false, "", none⟩).andThen
          (fun pd => specElements pd
            (Values.cons (.bool true) (.cons (.bool false) .nil)).toList
            (clearSize ⟨false, false, false, some 1, some 3, none, none, false, "", none⟩)) ∧
    (clearSize ⟨false, false, false, some 1, some 3, none, none, false, "", none⟩).sizeLowerBound
      = none ∧
    (clearSize ⟨false, false, false, some 1, some 3, none, none, false, "", none⟩).sizeUpperBound
      = none ∧
    (clearSize ⟨false, false, false, some 1, some 3, none, none, false, "", none⟩).sizeExtensible
      = false :=
  ⟨rfl, rfl, by decide, fun l h => by cases h; decide, by decide,
    parseSequenceOf_length_header ⟨[], 0⟩ (.cons (.bool true) (.cons (.bool false) .nil))
      ⟨false, false, false, some 1, some 3, none, none, false, "", none⟩ 3 rfl rfl (by decide)
      (fun l h => by cases h; decide) (by decide)⟩

/-- C15 fails as stated: a lower bound of 65536 or more is not used. With `sizeLB:70000`,
`sizeUB:3`, not extensible, and `n = 2` BOOLEAN elements (so `n < lb`), the length header
does not fail: it writes `n - 0 = 2` in 2 bits (range 4), octet `0x80`, and
`parseSequenceOf` goes on to write the two elements, octet `0xA0`. -/
theorem sequenceOfHeader_ignores_large_lower_bound :
    sequenceOfHeader ⟨[], 0⟩ (Values.cons (.bool true) (.cons (.bool false) .nil)).len
      ⟨false, false, false, some 70000, some 3, none, none, false, "", none⟩
      = .ok ⟨[0x80], 2⟩ ∧
    ¬ (sequenceOfHeader ⟨[], 0⟩ (Values.cons (.bool true) (.cons (.bool false) .nil)).len
      ⟨false, false, false, some 70000, some 3, none, none, false, "", none⟩).isError ∧
    parseSequenceOf ⟨[], 0⟩ (.cons (.bool true) (.cons (.bool false) .nil))
      ⟨false, false, false, some 70000, some 3, none, none, false, "", none⟩
      = .ok ⟨[0xA0], 4⟩ := by
  have h : sequenceOfHeader ⟨[], 0⟩ (Values.cons (.bool true) (.cons (.bool false) .nil)).len
      ⟨false, false, false, some 70000, some 3, none, none, false, "", none⟩
      = .ok ⟨[0x80], 2⟩ := by decide
  refine ⟨h, ?_, by decide⟩
  rintro ⟨e, pd, he⟩
  rw [h] at he
  cases he

/-! ## CHOICE -/

theorem scanFields_choice : ∀ (fields : Fields) (c p : Nat), fields.allExported = true →
    scanFields false fields c p = .inr (c, p)
  | .nil, c, p, _ => rfl
  | .cons _ exported _ _ rest, c, p, h => by
    simp only [Fields.allExported, Bool.and_eq_true] at h
    rw [scanFields, if_neg (by simp [h.1])]
    simp only [Bool.false_eq_true, if_false]
    exact scanFields_choice rest c p h.2

theorem makeFieldAt_field : ∀ (fields : Fields) (i : Nat) (pd : perRawBitData)
    (alt : Value) (altParams : fieldParameters),
    fields.field i = some alt → fields.paramsAt i = some altParams →
    makeFieldAt pd fields i = makeField pd alt altParams
  | .nil, _, _, _, _, h, _ => by simp [Fields.field] at h
  | .cons _ _ params v _, 0, pd, alt, altParams, h1, h2 => by
    simp only [Fields.field, Option.some.injEq] at h1
    simp only [Fields.paramsAt, Option.some.injEq] at h2
    rw [makeFieldAt, h1, h2]
  | .cons _ _ _ _ rest, i + 1, pd, alt, altParams, h1, h2 => by
    simp only [Fields.field] at h1
    simp only [Fields.paramsAt] at h2
    rw [makeFieldAt]
    exact makeFieldAt_field rest i pd alt altParams h1 h2

theorem field_of_lt : ∀ (fields : Fields) (i : Nat), i < fields.numField →
    ∃ alt altParams, fields.field i = some alt ∧ fields.paramsAt i = some altParams
  | .nil, _, h => by simp [Fields.numField] at h
  | .cons _ _ params v _, 0, _ => ⟨v, params, rfl, rfl⟩
  | .cons _ _ _ _ rest, i + 1, h => by
    simp only [Fields.numField] at h
    obtain ⟨alt, ap, h1, h2⟩ := field_of_lt rest i (by omega)
    exact ⟨alt, ap, by simp [Fields.field, h1], by simp [Fields.paramsAt, h2]⟩

theorem makeField_choice_unfold (pd : perRawBitData) (fields : Fields)
    (params : fieldParameters) (present : Int)
    (hseq : fields.sequenceType = false) (hp : fields.field 0 = some (.int present))
    (hexp : fields.allExported = true) (hopen : params.openType = false) :
    makeField pd (.struct fields) params =
      (if params.valueExtensible then putBitsValue pd 0 1 else .ok pd).andThen fun pd =>
        if present = 0 then .error .presentZero pd
        else if present ≥ fields.numField then .error .presentTooBig pd
        else
          (appendChoiceIndex pd present params.valueExtensible
            params.valueUpperBound).andThen fun pd =>
            if present < 0 then .panic else makeFieldAt pd fields present.toNat := by
  rw [makeField]
  congr 1
  funext pd1
  rw [hseq, scanFields_choice fields 0 0 hexp]
  simp only [gt_iff_lt, lt_self_iff_false, if_false, Outcome.andThen, if_true, hp, hopen,
    Bool.false_eq_true]

theorem appendChoiceIndex_inside (pd : perRawBitData) (present ub : Int) (extensive : Bool)
    (h1 : 1 ≤ present) (hub : present - 1 ≤ ub) (h65 : ub ≤ 65535) :
    appendChoiceIndex pd present extensive (some ub)
      = appendConstraintValue pd (ub + 1) (present - 1).toNat := by
  unfold appendChoiceIndex
  have h1 : toInt64 (present - 1) = present - 1 := by unfold toInt64; omega
  have h2 : toInt64 (ub + 1) = ub + 1 := by unfold toInt64; omega
  have h3 : toUint64 (present - 1) = (present - 1).toNat := by unfold toUint64; omega
  simp only [h1, h2, h3]
  rw [if_neg (by omega), if_neg (by omega)]

/-- C14, as the code has it: for a CHOICE value (struct whose first field is `Present`, an
integer `present`; not an open type) with `m = NumField - 1` alternatives, all fields
exported, on a writer satisfying the invariant: if `present` is 0 or `present > m`,
`makeField` returns an error; if `1 ≤ present ≤ m` and `present - 1 ≤ ub ≤ 65535`, its
outcome is that of writing the extension bit 0 when the CHOICE is marked extensible (nothing
otherwise), then `present - 1` as a constrained whole number with range `ub + 1`, then the
`present`-th alternative under that alternative's own parameters. Three alternatives,
`ub = 2`, `present = 2`, BOOLEAN true, not extensible, give the bits `011`, octet `0x60`. -/
theorem makeField_choice (pd : perRawBitData) (fields : Fields) (params : fieldParameters)
    (present : Int) (hwf : pd.WF)
    (hseq : fields.sequenceType = false) (hp : fields.field 0 = some (.int present))
    (hexp : fields.allExported = true) (hopen : params.openType = false) :
    ((present = 0 ∨ (fields.numField : Int) - 1 < present) →
      (makeField pd (.struct fields) params).isError) ∧
    (∀ ub : Int, 1 ≤ present → present ≤ (fields.numField : Int) - 1 →
      params.valueUpperBound = some ub → present - 1 ≤ ub → ub ≤ 65535 →
      ∃ alt altParams, fields.field present.toNat = some alt ∧
        fields.paramsAt present.toNat = some altParams ∧
        makeField pd (.struct fields) params =
          (if params.valueExtensible then putBitsValue pd 0 1 else .ok pd).andThen fun pd =>
            (appendConstraintValue pd (ub + 1) (present - 1).toNat).andThen fun pd =>
              makeField pd alt altParams) ∧
    makeField ⟨[], 0⟩ (.struct exampleChoice)
      ⟨false, false, false, none, none, none, some 2, false, "", none⟩ = .ok ⟨[0x60], 3⟩ := by
  refine ⟨?_, ?_, by decide⟩
  · intro h
    rw [makeField_choice_unfold pd fields params present hseq hp hexp hopen]
    have hfirst : ∃ pd1, (if params.valueExtensible then putBitsValue pd 0 1 else .ok pd)
        = .ok pd1 := by
      by_cases hx : params.valueExtensible = true
      · rw [if_pos hx]
        obtain ⟨pd1, h1, _⟩ := putBitsValue_holds pd pd.bits 0 1 (wf_holds pd hwf) (by decide)
          (by decide) (by decide)
        exact ⟨pd1, h1⟩
      · rw [if_neg hx]
        exact ⟨pd, rfl⟩
    obtain ⟨pd1, h1⟩ := hfirst
    rw [h1]
    simp only [Outcome.andThen]
    by_cases h0 : present = 0
    · rw [if_pos h0]
      exact ⟨_, _, rfl⟩
    · rw [if_neg h0, if_pos (by omega)]
      exact ⟨_, _, rfl⟩
  · intro ub h1 hm hub hle h65
    obtain ⟨alt, altParams, hf, hpa⟩ := field_of_lt fields present.toNat (by omega)
    refine ⟨alt, altParams, hf, hpa, ?_⟩
    rw [makeField_choice_unfold pd fields params present hseq hp hexp hopen]
    congr 1
    funext pd1
    rw [if_neg (by omega), if_neg (by omega), hub,
      appendChoiceIndex_inside pd1 present ub _ h1 hle h65]
    congr 1
    funext pd2
    rw [if_neg (by omega), makeFieldAt_field fields present.toNat pd2 alt altParams hf hpa]

theorem makeField_choice_witness :
    perRawBitData.WF ⟨[], 0⟩ ∧ exampleChoice.sequenceType = false ∧
    exampleChoice.field 0 = some (.int 2) ∧ exampleChoice.allExported = true ∧
    (false = false) ∧
    (((2 : Int) = 0 ∨ (exampleChoice.numField : Int) - 1 < 2) →
      (makeField ⟨[], 0⟩ (.struct exampleChoice)
        ⟨false, false, true, none, none, none, some 2, false, "", none⟩).isError) ∧
    (∀ ub : Int, 1 ≤ (2 : Int) → (2 : Int) ≤ (exampleChoice.numField : Int) - 1 →
      some (2 : Int) = some ub → (2 : Int) - 1 ≤ ub → ub ≤ 65535 →
      ∃ alt altParams, exampleChoice.field (2 : Int).toNat = some alt ∧
        exampleChoice.paramsAt (2 : Int).toNat = some altParams ∧
        makeField ⟨[], 0⟩ (.struct exampleChoice)
            ⟨false, false, true, none, none, none, some 2, false, "", none⟩ =
          (if true then putBitsValue ⟨[], 0⟩ 0 1 else .ok ⟨[], 0⟩).andThen fun pd =>
            (appendConstraintValue pd (ub + 1) ((2 : Int) - 1).toNat).andThen fun pd =>
              makeField pd alt altParams) ∧
    makeField ⟨[], 0⟩ (.struct exampleChoice)
      ⟨false, false, false, none, none, none, some 2, false, "", none⟩ = .ok ⟨[0x60], 3⟩ :=
  ⟨wf_empty, by decide, rfl, rfl, rfl,
    makeField_choice ⟨[], 0⟩ exampleChoice
      ⟨false, false, true, none, none, none, some 2, false, "", none⟩ 2 wf_empty (by decide)
      rfl rfl rfl⟩

/-- C14 fails as stated: for the CHOICE of the worked example marked extensible
(`valueExt`), `makeField` writes more than the index and the alternative: the extension bit
0 comes first, the bits are `0 01 1` and the octet is `0x30`, not `0x60`. -/
theorem makeField_choice_extension_bit :
    makeField ⟨[], 0⟩ (.struct exampleChoice)
      ⟨false, false, true, none, none, none, some 2, false, "", none⟩ = .ok ⟨[0x30], 4⟩ ∧
    (appendConstraintValue ⟨[], 0⟩ (2 + 1) ((2 : Int) - 1).toNat).andThen
      (fun pd => makeField pd (.bool true)
        ⟨false, false, false, none, none, none, none, false, "", none⟩) = .ok ⟨[0x60], 3⟩ := by
  decide

/-! ## SEQUENCE: the optional bitmap and the fields -/

theorem bitsNat_cons (b : Bool) (l : List Bool) :
    bitsNat (b :: l) = (if b then 1 else 0) * 2 ^ l.length + bitsNat l := by
  have h := bitsNat_append [b] l
  simp only [List.singleton_append] at h
  rw [h]
  cases b <;> simp [bitsNat]

theorem and_two_pow_eq_zero (p n : Nat) : p &&& 2 ^ n = 0 ↔ p / 2 ^ n % 2 = 0 := by
  have hbit : p &&& 2 ^ n = 0 ↔ p.testBit n = false := by
    constructor
    · intro h
      have h2 := congrArg (fun x => Nat.testBit x n) h
      simpa [Nat.testBit_two_pow_self] using h2
    · intro h
      apply Nat.eq_of_testBit_eq
      intro j
      rw [Nat.testBit_and, Nat.testBit_two_pow, Nat.zero_testBit]
      by_cases hj : n = j
      · subst hj; simp [h]
      · simp [hj]
  rw [hbit, Nat.testBit_to_div_mod]
  simp

theorem flag_bit (p n f r : Nat) (hr : r < 2 ^ n)
    (h : p % 2 ^ (n + 1) = f * 2 ^ n + r) : p / 2 ^ n % 2 = f ∧ p % 2 ^ n = r := by
  constructor
  · rw [← Nat.mod_mul_right_div_self, ← Nat.pow_succ, h, Nat.add_comm,
      Nat.add_mul_div_right _ _ (by positivity), Nat.div_eq_of_lt hr, Nat.zero_add]
  · have h2 : p % 2 ^ n = p % 2 ^ (n + 1) % 2 ^ n :=
      (Nat.mod_mod_of_dvd p ⟨2, Nat.pow_succ 2 n⟩).symm
    rw [h2, h, Nat.add_comm, Nat.add_mul_mod_self_right, Nat.mod_eq_of_lt hr]

theorem scanFields_sequence : ∀ (fields : Fields) (c p : Nat),
    fields.allExported = true → fields.optionalNilable = true →
    fields.mandatoryPresent = true → c + fields.optionalFlags.length ≤ 64 → p < 2 ^ c →
    scanFields true fields c p
      = .inr (c + fields.optionalFlags.length,
          p * 2 ^ fields.optionalFlags.length + bitsNat fields.optionalFlags)
  | .nil, c, p, _, _, _, _, _ => by
    simp [scanFields, Fields.optionalFlags, bitsNat]
  | .cons _ exported params v rest, c, p, hexp, hnil, hman, hc, hp => by
    simp only [Fields.allExported, Bool.and_eq_true] at hexp
    simp only [Fields.optionalNilable, Bool.and_eq_true] at hnil
    simp only [Fields.mandatoryPresent, Bool.and_eq_true] at hman
    rw [scanFields, if_neg (by simp [hexp.1])]
    simp only [if_true]
    by_cases hopt : params.optional = true
    · simp only [Fields.optionalFlags, hopt, if_true, List.length_cons] at hc ⊢
      have hsome : v.isNil.isSome = true := by simpa [hopt] using hnil.1
      obtain ⟨isNil, hisNil⟩ := Option.isSome_iff_exists.mp hsome
      have hp63 : p < 2 ^ 63 := lt_of_lt_of_le hp (Nat.pow_le_pow_right (by decide) (by omega))
      have hp1 : 2 * p + 1 < 2 ^ (c + 1) := by rw [Nat.pow_succ]; omega
      have hc1 : addU64 c 1 = c + 1 := by unfold addU64; omega
      have hs : shlU64 p 1 = 2 * p := by unfold shlU64; omega
      have hs1 : addU64 (2 * p) 1 = 2 * p + 1 := by unfold addU64; omega
      rw [hisNil]
      simp only [hc1, hs, hs1]
      cases isNil with
      | true =>
        simp only [if_true]
        rw [scanFields_sequence rest (c + 1) (2 * p) hexp.2 hnil.2 hman.2 (by omega) (by omega),
          bitsNat_cons]
        simp only [bne_self_eq_false, Bool.false_eq_true, if_false, Nat.zero_mul, Nat.zero_add,
          Nat.pow_succ]
        congr 2
        · omega
        · ring
      | false =>
        simp only [Bool.false_eq_true, if_false]
        rw [scanFields_sequence rest (c + 1) (2 * p + 1) hexp.2 hnil.2 hman.2 (by omega) hp1,
          bitsNat_cons]
        have hb : (some false != some true) = true := by decide
        simp only [hb, if_true, Nat.pow_succ]
        congr 2
        · omega
        · ring
    · have hopt2 : params.optional = false := by simpa using hopt
      simp only [Fields.optionalFlags, hopt2, Bool.false_eq_true, if_false] at hc ⊢
      have hm : ¬ (v.isPtr = true ∧ v.isNil = some true) := by
        have := hman.1
        simp only [hopt2, Bool.false_or, Bool.not_eq_true', Bool.and_eq_false_imp] at this
        rintro ⟨h1, h2⟩
        have := this h1
        rw [h2] at this
        exact absurd this (by decide)
      rw [if_neg hm]
      exact scanFields_sequence rest c p hexp.2 hnil.2 hman.2 hc hp

theorem makeFields_spec : ∀ (fields : Fields) (all : Fields) (i c p : Nat) (pd : perRawBitData),
    c = fields.optionalFlags.length → c ≤ 64 → p % 2 ^ c = bitsNat fields.optionalFlags →
    makeFields pd all fields i c p = specSequenceFields all fields i pd
  | .nil, all, i, c, p, pd, _, _, _ => by
    rw [makeFields, specSequenceFields]
  | .cons _ _ params v rest, all, i, c, p, pd, hc, h64, hp => by
    by_cases hopt : params.optional = true
    · simp only [Fields.optionalFlags, hopt, if_true, List.length_cons] at hc hp
      rw [bitsNat_cons] at hp
      subst hc
      have hr := bitsNat_lt rest.optionalFlags
      have hsh : shlU64 1 rest.optionalFlags.length = 2 ^ rest.optionalFlags.length := by
        unfold shlU64
        rw [Nat.one_mul, Nat.mod_eq_of_lt (Nat.pow_lt_pow_right (by decide) (by omega))]
      obtain ⟨hbit, hmod⟩ := flag_bit p _ _ _ hr hp
      have ih := fun pd1 => makeFields_spec rest all (i + 1) rest.optionalFlags.length p pd1
        rfl (by omega) hmod
      rw [makeFields, specSequenceFields]
      simp only [hopt, true_and, gt_iff_lt, Nat.add_sub_cancel, Nat.succ_pos, if_true, hsh,
        and_two_pow_eq_zero, hbit, Nat.zero_lt_succ]
      by_cases hn : v.isNil = some true
      · simp [hn, ih]
      · have hb : (v.isNil != some true) = true := by simpa using hn
        simp only [hb, if_true, hn, if_false, one_ne_zero]
        simp only [ih]
    · have hopt2 : params.optional = false := by simpa using hopt
      simp only [Fields.optionalFlags, hopt2, Bool.false_eq_true, if_false] at hc hp
      have ih := fun pd1 => makeFields_spec rest all (i + 1) c p pd1 hc h64 hp
      rw [makeFields, specSequenceFields]
      simp only [hopt2, Bool.false_eq_true, false_and, if_false, ih]

/-- C13, as the code has it: for a non-extensible SEQUENCE (struct whose first field is
not named `Present`) all of whose fields are exported, whose OPTIONAL fields are of a kind
that has a nil value, with `k` OPTIONAL fields, `1 ≤ k ≤ 64`, and no nil mandatory pointer
field, the outcome of `makeField` is that of `putBitsValue` writing the `k`-bit bitmap,
followed by the fields in declaration order: an OPTIONAL field that is absent is skipped,
every other field is encoded with its own parameters (an open-type field with its reference
value resolved). The `j`-th most significant bit of the bitmap is 1 exactly when the `j`-th
OPTIONAL field is present, and on a writer satisfying the invariant these `k` bits are
appended to the bit stream. `A` absent, `B` present BOOLEAN false, `C` mandatory BOOLEAN
true give the bits `0101`, octet `0x50`. -/
theorem makeField_sequence_bitmap (pd : perRawBitData) (fields : Fields)
    (params : fieldParameters)
    (hext : params.valueExtensible = false) (hseq : fields.sequenceType = true)
    (hexp : fields.allExported = true) (hnil : fields.optionalNilable = true)
    (hman : fields.mandatoryPresent = true)
    (h1 : 1 ≤ fields.optionalFlags.length) (h64 : fields.optionalFlags.length ≤ 64) :
    makeField pd (.struct fields) params =
      (putBitsValue pd (bitsNat fields.optionalFlags) fields.optionalFlags.length).andThen
        (fun pd => specSequenceFields fields fields 0 pd) ∧
    natBits fields.optionalFlags.length (bitsNat fields.optionalFlags) = fields.optionalFlags ∧
    (pd.WF → ∃ pd1,
      putBitsValue pd (bitsNat fields.optionalFlags) fields.optionalFlags.length = .ok pd1 ∧
      pd1.bits = pd.bits ++ fields.optionalFlags ∧ pd1.WF) ∧
    makeField ⟨[], 0⟩ (.struct exampleSequence)
      ⟨false, false, false, none, none, none, none, false, "", none⟩ = .ok ⟨[0x50], 4⟩ := by
  refine ⟨?_, natBits_bitsNat _, ?_, by decide⟩
  · rw [makeField, hext, hseq,
      scanFields_sequence fields 0 0 hexp hnil hman (by omega) (by decide)]
    simp only [Bool.false_eq_true, if_false, Outcome.andThen, Nat.zero_add, Nat.zero_mul,
      gt_iff_lt, if_pos (show 0 < fields.optionalFlags.length by omega), Bool.true_eq_false]
    congr 1
    funext pd1
    exact makeFields_spec fields fields 0 _ _ pd1 rfl h64
      (Nat.mod_eq_of_lt (bitsNat_lt _))
  · intro hwf
    obtain ⟨pd1, hput, hholds, _⟩ := putBitsValue_holds pd pd.bits (bitsNat fields.optionalFlags)
      fields.optionalFlags.length (wf_holds pd hwf) (by omega) (by omega) (bitsNat_lt _)
    refine ⟨pd1, hput, ?_, holds_wf _ _ hholds⟩
    rw [holds_bits _ _ hholds, natBits_bitsNat]

theorem makeField_sequence_bitmap_witness :
    (false = false) ∧ exampleSequence.sequenceType = true ∧
    exampleSequence.allExported = true ∧ exampleSequence.optionalNilable = true ∧
    exampleSequence.mandatoryPresent = true ∧
    1 ≤ exampleSequence.optionalFlags.length ∧ exampleSequence.optionalFlags.length ≤ 64 ∧
    makeField ⟨[0x80], 1⟩ (.struct exampleSequence)
        ⟨false, false, false, none, none, none, none, false, "", none⟩ =
      (putBitsValue ⟨[0x80], 1⟩ (bitsNat exampleSequence.optionalFlags)
        exampleSequence.optionalFlags.length).andThen
        (fun pd => specSequenceFields exampleSequence exampleSequence 0 pd) ∧
    natBits exampleSequence.optionalFlags.length (bitsNat exampleSequence.optionalFlags)
      = exampleSequence.optionalFlags ∧
    (perRawBitData.WF ⟨[0x80], 1⟩ → ∃ pd1,
      putBitsValue ⟨[0x80], 1⟩ (bitsNat exampleSequence.optionalFlags)
        exampleSequence.optionalFlags.length = .ok pd1 ∧
      pd1.bits = perRawBitData.bits ⟨[0x80], 1⟩ ++ exampleSequence.optionalFlags ∧ pd1.WF) ∧
    makeField ⟨[], 0⟩ (.struct exampleSequence)
      ⟨false, false, false, none, none, none, none, false, "", none⟩ = .ok ⟨[0x50], 4⟩ :=
  ⟨rfl, by decide, by decide, by decide, by decide, by decide, by decide,
    makeField_sequence_bitmap ⟨[0x80], 1⟩ exampleSequence
      ⟨false, false, false, none, none, none, none, false, "", none⟩ rfl (by decide)
      (by decide) (by decide) (by decide) (by decide) (by decide)⟩

/-- C13 fails as stated: a SEQUENCE with two OPTIONAL fields, no nil mandatory field and an
unexported field is refused before anything is written: `makeField` returns the error
`struct contains unexported fields` and the writer is unchanged, no bitmap and no field
being appended. -/
theorem makeField_sequence_unexported_field :
    makeField ⟨[], 0⟩
      (.struct (.cons "A" true ⟨true, false, false, none, none, none, none, false, "", none⟩
        (.ptr .invalid)
        (.cons "B" true ⟨true, false, false, none, none, none, none, false, "", none⟩
          (.ptr (.bool false))
        (.cons "c" false ⟨false, false, false, none, none, none, none, false, "", none⟩
          (.bool true) .nil))))
      ⟨false, false, false, none, none, none, none, false, "", none⟩
      = .error .unexportedField ⟨[], 0⟩ := by
  decide

/-! ## BIT STRING of fixed size and the writer invariant -/

/-- C18: the writer invariant does not hold after every successful `makeField`. For the
BIT STRING record with the four octets `FF FF FF FF` and bit length 20 under the fixed size
20 (`sizeLB:20,sizeUB:20`), `makeField` on the empty writer succeeds with the octets
`FF FF F0 FF` and `bitsOffset = 4`: the whole slice is appended, not its first
`ceil(20/8) = 3` octets, so the unused low bits of the last octet are not zero and
`MarshalWithParams` returns 4 octets for 20 bits. -/
theorem makeField_fixed_bitString_breaks_invariant :
    makeField ⟨[], 0⟩ (.bitString [0xFF, 0xFF, 0xFF, 0xFF] 20)
      ⟨false, false, false, some 20, some 20, none, none, false, "", none⟩
      = .ok ⟨[0xFF, 0xFF, 0xF0, 0xFF], 4⟩ ∧
    ¬ perRawBitData.WF ⟨[0xFF, 0xFF, 0xF0, 0xFF], 4⟩ ∧
    MarshalWithParams (.bitString [0xFF, 0xFF, 0xFF, 0xFF] 20)
      ⟨false, false, false, some 20, some 20, none, none, false, "", none⟩
      = .returned (some [0xFF, 0xFF, 0xF0, 0xFF]) none := by
  refine ⟨by decide, ?_, by decide⟩
  intro h
  have h4 := h.2.2.2
  revert h4
  decide

/-! ## Constrained whole numbers and length determinants -/

/-- C21: `appendConstraintValue(range, value)` for `value < range`: if `1 ≤ range ≤ 255`, on
a writer satisfying the invariant it succeeds and appends exactly the `n` bits of `value` at
the current bit offset with no alignment, `n` being the least number in `[1,8]` with
`2 ^ n ≥ range`; if `range = 256`, on every writer it aligns and appends the octet `value`;
if `257 ≤ range ≤ 65536`, on every writer it aligns and appends the two octets of `value`,
most significant first. For `range < 0` and for `range > 65536` it returns an error and the
writer is unchanged. -/
theorem appendConstraintValue_forms (pd : perRawBitData) (valueRange : Int) (value : Nat) :
    (1 ≤ valueRange → valueRange ≤ 255 → (value : Int) < valueRange → pd.WF →
      ∃ n pd', 1 ≤ n ∧ n ≤ 8 ∧ valueRange ≤ 2 ^ n ∧
        (∀ m : Nat, 1 ≤ m → valueRange ≤ 2 ^ m → n ≤ m) ∧
        appendConstraintValue pd valueRange value = .ok pd' ∧
        pd'.bits = pd.bits ++ natBits n value ∧
        pd'.bitsOffset = (pd.bitsOffset + n) % 8 ∧ pd'.WF) ∧
    (valueRange = 256 → (value : Int) < valueRange →
      appendConstraintValue pd valueRange value = .ok ⟨pd.bytes ++ [value], 0⟩) ∧
    (257 ≤ valueRange → valueRange ≤ 65536 → (value : Int) < valueRange →
      appendConstraintValue pd valueRange value
        = .ok ⟨pd.bytes ++ [value / 256, value % 256], 0⟩) ∧
    ((valueRange < 0 ∨ 65536 < valueRange) →
      ∃ e, appendConstraintValue pd valueRange value = .error e pd) := by
  refine ⟨?_, ?_, ?_, ?_⟩
  · intro h1 h255 hv hwf
    obtain ⟨w1, w8, wb, wmin⟩ := widthLoop_small valueRange h255
    have hvlt : value < 2 ^ widthLoop 8 1 valueRange := by
      have : (value : Int) < 2 ^ widthLoop 8 1 valueRange := lt_of_lt_of_le hv wb
      exact_mod_cast this
    obtain ⟨pd', hput, hholds, hoff⟩ := putBitsValue_holds pd pd.bits value
      (widthLoop 8 1 valueRange) (wf_holds pd hwf) (by omega) (by omega) hvlt
    refine ⟨widthLoop 8 1 valueRange, pd', w1, w8, wb, wmin, ?_, holds_bits _ _ hholds, hoff,
      holds_wf _ _ hholds⟩
    unfold appendConstraintValue
    rw [if_pos h255, if_neg (by omega), hput]
  · intro h256 hv
    unfold appendConstraintValue
    rw [if_neg (by omega), if_pos h256]
    simp only [appendAlignBits]
    exact putBitsValue_octet pd.bytes value (by omega)
  · intro h257 h65 hv
    unfold appendConstraintValue
    rw [if_neg (by omega), if_neg (by omega), if_pos h65]
    simp only [appendAlignBits]
    have h := putBitsValue_octets pd.bytes 2 value (by decide) (by decide) (by omega)
    have hb : beBytes 2 value = [value / 256, value % 256] := by
      simp only [beBytes, List.nil_append, List.singleton_append]
      congr 1
      omega
    rw [hb] at h
    exact h
  · intro h
    unfold appendConstraintValue
    rcases h with h | h
    · rw [if_pos (by omega), if_pos h]
      exact ⟨_, rfl⟩
    · rw [if_neg (by omega), if_neg (by omega), if_neg (by omega)]
      exact ⟨_, rfl⟩

theorem appendConstraintValue_forms_witness :
    ((1 : Int) ≤ 5 ∧ (5 : Int) ≤ 255 ∧ ((3 : Nat) : Int) < 5 ∧ perRawBitData.WF ⟨[], 0⟩) ∧
    (∃ n pd', 1 ≤ n ∧ n ≤ 8 ∧ (5 : Int) ≤ 2 ^ n ∧
      (∀ m : Nat, 1 ≤ m → (5 : Int) ≤ 2 ^ m → n ≤ m) ∧
      appendConstraintValue ⟨[], 0⟩ 5 3 = .ok pd' ∧
      pd'.bits = perRawBitData.bits ⟨[], 0⟩ ++ natBits n 3 ∧
      pd'.bitsOffset = (0 + n) % 8 ∧ pd'.WF) ∧
    appendConstraintValue ⟨[0x80], 1⟩ 256 200 = .ok ⟨[0x80] ++ [200], 0⟩ ∧
    appendConstraintValue ⟨[0x80], 1⟩ 1000 300 = .ok ⟨[0x80] ++ [300 / 256, 300 % 256], 0⟩ ∧
    ∃ e, appendConstraintValue ⟨[0x80], 1⟩ 65537 3 = .error e ⟨[0x80], 1⟩ :=
  ⟨⟨by decide, by decide, by decide, wf_empty⟩,
    (appendConstraintValue_forms ⟨[], 0⟩ 5 3).1 (by decide) (by decide) (by decide) wf_empty,
    (appendConstraintValue_forms ⟨[0x80], 1⟩ 256 200).2.1 rfl (by decide),
    (appendConstraintValue_forms ⟨[0x80], 1⟩ 1000 300).2.2.1 (by decide) (by decide)
      (by decide),
    (appendConstraintValue_forms ⟨[0x80], 1⟩ 65537 3).2.2.2 (Or.inr (by decide))⟩

theorem appendLength_unconstrained (pd : perRawBitData) (sizeRange : Int) (value : Nat)
    (h : sizeRange ≤ 0 ∨ 65536 < sizeRange) :
    appendLength pd sizeRange value = appendLength pd (-1) value := by
  unfold appendLength
  simp only [if_neg (show ¬ (sizeRange ≤ 65536 ∧ sizeRange > 0) by omega),
    if_neg (show ¬ ((-1 : Int) ≤ 65536 ∧ (-1 : Int) > 0) by decide)]

theorem or_0x80_shift (value : Nat) (h : value ≤ 16383) :
    0x80 ||| (value >>> 8) = 128 + value / 256 := by
  rw [Nat.shiftRight_eq_div_pow]
  have h := Nat.mul_add_lt_is_or (show value / 2 ^ 8 < 2 ^ 7 by omega) 1
  simpa using h.symm

theorem and_0xFF (value : Nat) : value &&& 0xFF = value % 256 :=
  Nat.and_pow_two_sub_one_eq_mod value 8

theorem or_0xC0_lt (value : Nat) (h : value < 2 ^ 20) : 0xC0 ||| (value >>> 14) < 256 := by
  have hs : value >>> 14 < 2 ^ 8 := by
    rw [Nat.shiftRight_eq_div_pow]
    omega
  exact Nat.or_lt_two_pow (by decide) hs

theorem lengthOctets_lt (value : Nat) (hv : value < 2 ^ 20) :
    ∀ b ∈ lengthOctets value, b < 256 := by
  unfold lengthOctets
  intro b hb
  by_cases h127 : value ≤ 127
  · rw [if_pos h127] at hb
    simp only [List.mem_singleton] at hb
    omega
  · rw [if_neg h127] at hb
    by_cases h16 : value ≤ 16383
    · rw [if_pos h16, or_0x80_shift value h16, and_0xFF] at hb
      simp only [List.mem_cons, List.mem_singleton, List.not_mem_nil, or_false] at hb
      omega
    · rw [if_neg h16] at hb
      simp only [List.mem_singleton] at hb
      rw [hb]
      exact or_0xC0_lt value hv

theorem appendLength_lengthOctets (pd : perRawBitData) (value : Nat) (hv : value < 2 ^ 20) :
    appendLength pd (-1) value = .ok ⟨pd.bytes ++ lengthOctets value, 0⟩ := by
  unfold lengthOctets
  by_cases h127 : value ≤ 127
  · rw [if_pos h127]
    exact appendLength_short pd value h127
  · rw [if_neg h127]
    by_cases h16 : value ≤ 16383
    · rw [if_pos h16, or_0x80_shift value h16, and_0xFF]
      exact appendLength_two pd value (by omega) h16
    · rw [if_neg h16, Nat.lor_comm]
      unfold appendLength
      rw [if_neg (by decide)]
      simp only [appendAlignBits]
      rw [if_neg h127, if_neg h16]
      apply putBitsValue_octet
      rw [Nat.lor_comm]
      exact or_0xC0_lt value hv

/-- C22: for `sizeRange ≤ 0` or `sizeRange > 65536` and `value < 2 ^ 20`, on every writer
`appendLength(sizeRange, value)` succeeds, and the result is the old octets (the writer
being aligned first) followed by the single octet `value` when `value ≤ 127`, the two octets
`0x80 | (value >> 8)` and `value & 0xFF` when `128 ≤ value ≤ 16383`, and the single octet
`0xC0 | (value >> 14)` when `value ≥ 16384`, with `bitsOffset = 0`; each of these is an
octet. For `0 < sizeRange ≤ 65536` its outcome is that of
`appendConstraintValue(sizeRange, value)`. -/
theorem appendLength_forms (pd : perRawBitData) (sizeRange : Int) (value : Nat) :
    ((sizeRange ≤ 0 ∨ 65536 < sizeRange) → value < 2 ^ 20 →
      appendLength pd sizeRange value = .ok ⟨pd.bytes ++ lengthOctets value, 0⟩ ∧
      ∀ b ∈ lengthOctets value, b < 256) ∧
    (0 < sizeRange → sizeRange ≤ 65536 →
      appendLength pd sizeRange value = appendConstraintValue pd sizeRange value) := by
  constructor
  · intro hs hv
    refine ⟨?_, lengthOctets_lt value hv⟩
    rw [appendLength_unconstrained pd sizeRange value hs]
    exact appendLength_lengthOctets pd value hv
  · intro h0 h1
    unfold appendLength
    rw [if_pos ⟨h1, h0⟩]

theorem appendLength_forms_witness :
    (((0 : Int) ≤ 0 ∨ (65536 : Int) < 0) ∧ 300 < 2 ^ 20) ∧
    (appendLength ⟨[0x80], 1⟩ 0 300 = .ok ⟨[0x80] ++ lengthOctets 300, 0⟩ ∧
      ∀ b ∈ lengthOctets 300, b < 256) ∧
    lengthOctets 300 = [0x81, 0x2C] ∧ lengthOctets 100 = [100] ∧
    lengthOctets 32768 = [0xC2] ∧
    ((0 : Int) < 5 ∧ (5 : Int) ≤ 65536) ∧
    appendLength ⟨[0x80], 1⟩ 5 3 = appendConstraintValue ⟨[0x80], 1⟩ 5 3 :=
  ⟨⟨Or.inl (by decide), by decide⟩,
    (appendLength_forms ⟨[0x80], 1⟩ 0 300).1 (Or.inl (by decide)) (by decide),
    by decide, by decide, by decide, ⟨by decide, by decide⟩,
    (appendLength_forms ⟨[0x80], 1⟩ 5 3).2 (by decide) (by decide)⟩

/-! ## OCTET STRING: accesses out of range -/

theorem appendOctetString_lb1_len16386 (pd : perRawBitData) (bytes : List Nat)
    (h : bytes.length = 16386) :
    appendOctetString pd bytes false (some 1) none = .panic := by
  unfold appendOctetString octetStringBody
  simp only [h]
  rw [if_neg (by decide), if_neg (by decide)]
  have e : subU64 16386 (toUint64 1) = 16385 := by decide
  rw [e, octetStringLoop]
  have hp : fragmentPart 16385 = 16384 := by decide
  simp only [hp]
  rw [appendLength_fragment pd 16384 (by decide) (by decide)]
  simp only [Outcome.andThen, appendAlignBits]
  have e2 : addU64 16384 (toUint64 1) = 16385 := by decide
  have e3 : addU64 0 16385 = 16385 := by decide
  have e4 : subU64 16385 (subU64 16385 (toUint64 1)) = 1 := by decide
  have hs : goSlice bytes 0 16385 = some (bytes.take 16385) := by
    unfold goSlice
    rw [if_neg (by omega)]
    simp
  simp only [e2, e3, e4, hs]
  rw [if_neg (by decide), if_pos (by decide), octetStringLoop]
  have hp1 : fragmentPart 1 = 1 := by decide
  simp only [hp1]
  rw [appendLength_short _ 1 (by decide)]
  simp only [Outcome.andThen, appendAlignBits]
  have e5 : addU64 1 (toUint64 1) = 2 := by decide
  have e6 : addU64 16385 2 = 16387 := by decide
  have hs2 : goSlice bytes 16385 16387 = none := by
    unfold goSlice
    rw [if_pos (by omega)]
  simp only [e5, e6, hs2]
  rw [if_neg (by decide)]

/-- C23: `appendOctetString` does access out of range on strings that satisfy their size
constraint, from writers that satisfy the invariant. The empty string under the fixed size 0
(`lb = ub = 0`), on the writer holding one bit (`bitsOffset = 1`), panics at `bytes[0]` of
`putBitString`; a string of 16386 octets under `sizeLB:1` with no upper bound, on the empty
writer, panics in the second turn of the fragmentation loop at the slice
`bytes[16385:16387]`, the lower bound being added to every fragment. -/
theorem appendOctetString_out_of_range_access :
    perRawBitData.WF ⟨[0x80], 1⟩ ∧
    appendOctetString ⟨[0x80], 1⟩ [] false (some 0) (some 0) = .panic ∧
    perRawBitData.WF ⟨[], 0⟩ ∧
    appendOctetString ⟨[], 0⟩ (List.replicate 16386 0) false (some 1) none = .panic := by
  refine ⟨?_, by decide, wf_empty, ?_⟩
  · refine ⟨by decide, by decide, by decide, by decide⟩
  · exact appendOctetString_lb1_len16386 ⟨[], 0⟩ _ (List.length_replicate _ _)

end Aper
